import Mathlib

/-!
Verification of the pyrcb2 IRC client library against its specification.

The development shallowly embeds the relevant parts of `pyrcb2/messages.py`
and `pyrcb2/pyrcb2.py`:

* IRC case rules (`IStr.make_lower`) and the message/pattern model
  (`Message`, `ANY`, `ANY_ARGS`, `SELF`, `matches_pattern`);
* the wait engine `IRCBot._wait_for` (and its `wait_for` / `wait_for_all`
  entry points), modelled as a function over a trace of timed inbound
  events;
* the outbound pacing computation `IRCBot.get_and_update_delay`;
* the wire codec `IRCBot.parse` / `IRCBot.format`;
* the message splitter `IRCBot.split_string` / `IRCBot._split_string`.

Python messages are tuples of strings, modelled as `List String`.
Wall-clock instants and durations (floats in Python) are modelled as
integers -- an exact model of time in an arbitrary unit, so the order and
min/max algebra of the Python code carries over while staying computable
in the kernel.
-/

namespace Pyrcb2

/-- IRC case rules, from `IStr.make_lower` in `itypes.py`: ordinary
lowercasing, with the four characters of the string of brackets, backslash
and tilde replaced by their IRC lowercase equivalents. -/
def ircLowerChar (c : Char) : Char :=
  if c = '[' then '{'
  else if c = ']' then '}'
  else if c = '\\' then '|'
  else if c = '~' then '^'
  else c.toLower

/-- Lowercases a string according to IRC case rules (`IStr.make_lower`). -/
def ircLower (s : String) : String :=
  String.mk (s.data.map ircLowerChar)

/-- Decidable equality for `Except`, used to evaluate the wire codec and
the splitter on concrete inputs. -/
instance {ε α : Type} [DecidableEq ε] [DecidableEq α] : DecidableEq (Except ε α) :=
  fun x y =>
    match x, y with
    | .ok a, .ok b => if h : a = b then .isTrue (by rw [h]) else .isFalse (by simp [h])
    | .error e, .error f => if h : e = f then .isTrue (by rw [h]) else .isFalse (by simp [h])
    | .ok _, .error _ => .isFalse (by simp)
    | .error _, .ok _ => .isFalse (by simp)

/-- A received IRC message, as iterated by `Message.__iter__`: the tuple
(sender, command, arg1, ..., argN), every component a string. -/
abbrev Msg := List String

/-- One position of a message pattern, as accepted by `Message.__init__` in
`messages.py`: the placeholders `ANY` (Python `None`), `ANY_ARGS`, `SELF`,
a string literal, a set/list/tuple of string alternatives, or a callable
predicate applied to the single message component at that position. -/
inductive PatArg where
  | any
  | anyArgs
  | self
  | lit (s : String)
  | mem (l : List String)
  | pred (f : String → Bool)

/-- A pattern argument to `matches_pattern`: either a callable applied to
the whole message, or a `Message`-shaped tuple of per-position patterns. -/
inductive Pattern where
  | callable (f : Msg → Bool)
  | args (l : List PatArg)

/-- Identity test against the `ANY_ARGS` sentinel, as used by the Python
membership test `ANY_ARGS not in pattern` (sentinels compare by identity). -/
def PatArg.isAnyArgs : PatArg → Bool
  | .anyArgs => true
  | _ => false

/-- The comparison performed by the body of the `for` loop of
`matches_pattern` at position `i` once the placeholder cases are past.
Positions 0 and 1 of a message are converted to `IStr` before comparison
(and patterns built by `Message.__init__` hold `IStr` there as well), so
literal and membership comparisons at those positions are case-insensitive
while later positions compare exactly.  The `SELF` comparison is against
`bot_nickname`, which the `cast_args` decorator has converted to `IStr`,
so it is case-insensitive at every position. -/
def argTest (nick : Option String) (i : Nat) (patternArg : PatArg)
    (messageArg : String) : Bool :=
  match patternArg with
  | .any => true
  | .anyArgs => true
  | .self =>
    match nick with
    | some n => ircLower messageArg == ircLower n
    | none => false
  | .pred f => f messageArg
  | .mem l =>
    if i ≤ 1 then l.any (fun e => ircLower e == ircLower messageArg)
    else l.contains messageArg
  | .lit s =>
    if i ≤ 1 then ircLower messageArg == ircLower s
    else messageArg == s

/-- The `for i, pattern_arg in enumerate(pattern)` loop of
`matches_pattern`: `ANY` continues unconditionally, `ANY_ARGS` returns
`True` immediately, a position beyond the end of the message returns
`False`, and otherwise the per-position comparison must succeed. -/
def walkArgs (nick : Option String) (message : Msg) :
    List PatArg → Nat → Bool
  | [], _ => true
  | pa :: rest, i =>
    match pa with
    | .any => walkArgs nick message rest (i + 1)
    | .anyArgs => true
    | pa =>
      if h : i < message.length then
        argTest nick i pa (message.get ⟨i, h⟩) && walkArgs nick message rest (i + 1)
      else false

/-- `matches_pattern(message, pattern, bot_nickname)` from `messages.py`:
a callable pattern is applied to the whole message; otherwise a message
longer than the pattern fails immediately unless the pattern contains
`ANY_ARGS`, and then the positions are walked left to right. -/
def matches_pattern (message : Msg) (pattern : Pattern)
    (nick : Option String) : Bool :=
  match pattern with
  | .callable f => f message
  | .args pa =>
    if message.length > pa.length && !(pa.any PatArg.isAnyArgs) then false
    else walkArgs nick message pa 0

/-- `matches_any_pattern(message, patterns)` from `messages.py`; note the
bot nickname is not forwarded, so `SELF` never matches here. -/
def matches_any_pattern (message : Msg) (patterns : List Pattern) : Bool :=
  patterns.any (fun p => matches_pattern message p none)

/-- The specification version of the per-position test, written from the
wording of the claim: `SELF` requires the message value to equal the bot
nickname case-insensitively, a set requires membership, a callable must
return truthy on the single argument, and any other value must equal the
message value, case-insensitively for positions 0 and 1 and exactly for
later positions. -/
def argTestSpec (nick : Option String) (i : Nat) (patternArg : PatArg)
    (messageArg : String) : Bool :=
  match patternArg with
  | .any => true
  | .anyArgs => true
  | .self =>
    match nick with
    | some n => ircLower messageArg == ircLower n
    | none => false
  | .pred f => f messageArg
  | .mem l =>
    if i ≤ 1 then l.any (fun e => ircLower e == ircLower messageArg)
    else l.contains messageArg
  | .lit s =>
    if i ≤ 1 then ircLower messageArg == ircLower s
    else messageArg == s

/-- The specification walk, written from the wording of the claim: walk
positions left to right, `ANY` matches unconditionally (also the lack of
an argument), `ANY_ARGS` immediately succeeds for all remaining
positions, every other position requires a present message component
passing the per-position test; a message with components remaining after
the pattern is exhausted fails to match. -/
def specWalk (nick : Option String) :
    Msg → List PatArg → Nat → Bool
  | margs, [], _ => margs.isEmpty
  | margs, .any :: rest, i => specWalk nick margs.tail rest (i + 1)
  | _, .anyArgs :: _, _ => true
  | [], _ :: _, _ => false
  | marg :: mrest, pa :: rest, i =>
    argTestSpec nick i pa marg && specWalk nick mrest rest (i + 1)

/-- Declarative description of pattern matching, from the specification
text. -/
def matchesSpec (message : Msg) (pattern : Pattern)
    (nick : Option String) : Bool :=
  match pattern with
  | .callable f => f message
  | .args pa => specWalk nick message pa 0

/-- `WaitResult` from `messages.py` (the `value` attribute is always
`None` in the paths modelled here). -/
structure WaitResult where
  success : Bool
  value : Option Unit
  error : Option Msg
  error_cause : Option String
  messages : Option (List Msg)
deriving DecidableEq

/-- `WaitResult.__init__`: when no explicit cause is given and an error
message is present, the cause defaults to "message". -/
def WaitResult.make (success : Bool) (value : Option Unit) (error : Option Msg)
    (error_cause : Option String) (messages : Option (List Msg)) : WaitResult :=
  { success := success
    value := value
    error := error
    error_cause :=
      match error_cause, error with
      | none, some _ => some "message"
      | ec, _ => ec
    messages := messages }

/-- The `capture` argument of `_wait_for`: `True` (capture everything that
matches the expected patterns) or a list of patterns (`ensure_list` turns
`None` into the empty list and a single pattern into a singleton). -/
inductive CaptureSpec where
  | all
  | pats (l : List Pattern)

section WaitEngine

/-- The `while True:` loop of `IRCBot._wait_for`, modelled over a trace of
timed inbound events.  An event `(t, some m)` is the message `m` becoming
readable at instant `t`; `(t, none)` is `read_message()` returning `None`
(disconnection) at instant `t`.

Each iteration recomputes the per-read timeout as `end_time - now`
(returning a timeout result if it is already nonpositive), then awaits the
next event: `asyncio.wait_for` raises `TimeoutError` if the event arrives
after `end_time`.  A received message is tested against the error patterns,
then the capture patterns, then the expected patterns; with `match_all`
every matched expected pattern is removed and the wait succeeds when none
remain, and without `match_all` the first match succeeds immediately.
`none` as the overall result models the coroutine blocking forever
(no deadline and no further events). -/
def waitLoop (nick : Option String) (errors capture : List Pattern)
    (matchAll : Bool) (endTime : Option ℤ) :
    List Pattern → List Msg → ℤ → List (ℤ × Option Msg) → Option WaitResult
  | expected, captured, now, events =>
    if (match endTime with
        | some e => decide (e - now ≤ 0)
        | none => false) then
      some (WaitResult.make false none none (some "timeout") none)
    else
      match events with
      | [] =>
        match endTime with
        | some _ => some (WaitResult.make false none none (some "timeout") (some captured))
        | none => none
      | (t, ev) :: rest =>
        if (match endTime with
            | some e => decide (e < t)
            | none => false) then
          some (WaitResult.make false none none (some "timeout") (some captured))
        else
          match ev with
          | none => some (WaitResult.make false none none (some "disconnected") (some captured))
          | some message =>
            if matches_any_pattern message errors then
              some (WaitResult.make false none (some message) none (some captured))
            else
              let captured' :=
                if matches_any_pattern message capture then captured ++ [message]
                else captured
              if expected.any (fun p => matches_pattern message p nick) && !matchAll then
                some (WaitResult.make true none none none (some captured'))
              else
                let expected' :=
                  if matchAll then
                    expected.filter (fun p => !(matches_pattern message p nick))
                  else expected
                if expected'.isEmpty then
                  some (WaitResult.make true none none none (some captured'))
                else
                  waitLoop nick errors capture matchAll endTime expected' captured' t rest

/-- Entry of `IRCBot._wait_for` (after any awaitable arguments have been
awaited): `timeout` defaults to `default_timeout`, a nonpositive timeout
disables the deadline, the deadline `end_time` is fixed once as
`start + timeout`, and `capture=True` snapshots the expected patterns. -/
def wait_for_impl (nick : Option String) (expected errors : List Pattern)
    (capture : CaptureSpec) (matchAll : Bool) (timeout : Option ℤ)
    (default_timeout : ℤ) (start : ℤ) (events : List (ℤ × Option Msg)) :
    Option WaitResult :=
  let t0 := timeout.getD default_timeout
  let endTime : Option ℤ := if t0 ≤ 0 then none else some (start + t0)
  let capturePats :=
    match capture with
    | CaptureSpec.all => expected
    | CaptureSpec.pats l => l
  waitLoop nick errors capturePats matchAll endTime expected [] start events

/-- `IRCBot.wait_for`: returns as soon as one expected pattern matches. -/
def wait_for (nick : Option String) (expected errors : List Pattern)
    (capture : CaptureSpec) (timeout : Option ℤ) (default_timeout : ℤ)
    (start : ℤ) (events : List (ℤ × Option Msg)) : Option WaitResult :=
  wait_for_impl nick expected errors capture false timeout default_timeout start events

/-- `IRCBot.wait_for_all`: waits until every expected pattern has
matched. -/
def wait_for_all (nick : Option String) (expected errors : List Pattern)
    (capture : CaptureSpec) (timeout : Option ℤ) (default_timeout : ℤ)
    (start : ℤ) (events : List (ℤ × Option Msg)) : Option WaitResult :=
  wait_for_impl nick expected errors capture true timeout default_timeout start events

end WaitEngine

/-- The three delay parameters used by `IRCBot.get_and_update_delay` (the
targeted and untargeted parameter sets have the same shape). -/
structure DelayParams where
  delay_multiplier : ℤ
  max_delay : ℤ
  consecutive_timeout : ℤ
deriving DecidableEq

section Delay

/-- `IRCBot.get_and_update_delay(target)` from `pyrcb2.py`, as a pure
function of the per-target `last_sent` entry (`(last_time, consecutive)`,
or `none` when the target is new) and the current monotonic time.
Returns the computed delay and the new `last_sent` entry. -/
def get_and_update_delay (p : DelayParams) (last_sent : Option (ℤ × ℕ))
    (now : ℤ) : ℤ × (ℤ × ℕ) :=
  let last_time0 : Option ℤ := last_sent.map Prod.fst
  let consecutive0 : ℕ := (last_sent.map Prod.snd).getD 0
  let consecutive : ℕ :=
    match last_time0 with
    | some t => if p.consecutive_timeout ≤ now - t then 0 else consecutive0
    | none => consecutive0
  let last_time : ℤ := last_time0.getD now
  let delay_from_last : ℤ := min ((consecutive : ℤ) * p.delay_multiplier) p.max_delay
  let message_time := last_time + delay_from_last
  let delay := max (message_time - now) 0
  let message_time' := max message_time now
  (delay, (message_time', consecutive + 1))

/-- The sequence of `last_sent` entries produced by consecutive calls of
`get_and_update_delay` for one target at the given call instants. -/
def runStates (p : DelayParams) : (ℤ × ℕ) → List ℤ → List (ℤ × ℕ)
  | _, [] => []
  | st, t :: ts =>
    (get_and_update_delay p (some st) t).2 ::
      runStates p (get_and_update_delay p (some st) t).2 ts

/-- A run of call instants is prompt when every call happens less than
`consecutive_timeout` after the previously scheduled send (so no reset
occurs) and no later than the newly scheduled send time (the scheduler is
not running behind). -/
def promptRun (p : DelayParams) : (ℤ × ℕ) → List ℤ → Bool
  | _, [] => true
  | st, t :: ts =>
    decide (t - st.1 < p.consecutive_timeout) &&
    decide (t ≤ st.1 + min ((st.2 : ℤ) * p.delay_multiplier) p.max_delay) &&
    promptRun p (get_and_update_delay p (some st) t).2 ts

/-- The scheduled send times the specification predicts for a prompt run:
starting from state `(t0, k)`, each send is scheduled
`min (k * multiplier) max_delay` after the previous one and increments the
consecutive counter. -/
def idealStates (p : DelayParams) : ℤ → ℕ → ℕ → List (ℤ × ℕ)
  | _, _, 0 => []
  | t0, k, Nat.succ n =>
    (t0 + min ((k : ℤ) * p.delay_multiplier) p.max_delay, k + 1) ::
      idealStates p (t0 + min ((k : ℤ) * p.delay_multiplier) p.max_delay) (k + 1) n

end Delay

/-- The character class of the regex of `IRCBot.format` requiring an
alphanumeric (ASCII) command. -/
def isAlnumAscii (c : Char) : Bool :=
  ('a' ≤ c && c ≤ 'z') || ('A' ≤ c && c ≤ 'Z') || ('0' ≤ c && c ≤ '9')

/-- A character forbidden in any outgoing argument (NUL, CR, LF), from the
regex of `IRCBot.format`. -/
def isBadArgChar (c : Char) : Bool :=
  c = '\x00' || c = '\r' || c = '\n'

/-- The portion of a string that the body of a Python regex
`re.match(r"^X+$", s)` (no MULTILINE flag) has to cover: the dollar anchor
matches at the end of the string or just before one trailing newline, so
when `s` ends in a line feed the body only has to cover `s.dropLast`.
(Both regexes of `IRCBot.format` exclude the line feed from `X`, so the
trailing line feed itself can never be covered by `X+`.) -/
def pyDollarBody (s : List Char) : List Char :=
  if s.getLast? = some '\n' then s.dropLast else s

/-- Truth value of Python `re.match(r"^X+$", s)` for a character class `X`
that excludes the line feed: the string, with one trailing line feed
removed if present, is nonempty and consists of `X` characters only. -/
def matchPlusDollar (p : Char → Bool) (s : List Char) : Bool :=
  !(pyDollarBody s).isEmpty && (pyDollarBody s).all p

/-- `args[-1] = ":" + args[-1]` of `IRCBot.format`: the last argument is
prefixed with a colon unconditionally. -/
def colonLast (args : List (List Char)) : List (List Char) :=
  match args.getLast? with
  | none => []
  | some la => args.dropLast ++ [':' :: la]

/-- Helper of `joinSpace`: the tail pieces each preceded by one space. -/
def joinSpaceTail : List (List Char) → List Char
  | [] => []
  | w :: rest => ' ' :: w ++ joinSpaceTail rest

/-- The join of `" ".flatten(...)` used by `IRCBot.format`. -/
def joinSpace : List (List Char) → List Char
  | [] => []
  | p :: rest => p ++ joinSpaceTail rest

/-- `IRCBot.format(command, args)` from `pyrcb2.py`: checks that the
command and all arguments are nonempty, that the command matches
`re.match(r"^[a-zA-Z0-9]+$", command)`, that every argument matches
`re.match(r"^[^\0\r\n]+$", arg)` -- where the Python dollar anchor also
matches before one trailing newline, so a command or argument whose only
line feed is a single trailing one passes these two checks -- and that
only the last argument starts with a colon or contains a space; then
prefixes the last argument with a colon and joins everything with single
spaces.  A Python `ValueError` is modelled as `Except.error` with the
corresponding message. -/
def format (command : List Char) (args : List (List Char)) :
    Except String (List Char) :=
  if (command :: args).any List.isEmpty then
    .error "Command/args may not be empty strings."
  else if !(matchPlusDollar isAlnumAscii command) then
    .error "Command must be alphanumeric."
  else if !(args.all fun a => matchPlusDollar (fun c => !isBadArgChar c) a) then
    .error "Arguments may not contain NUL, CR or LF."
  else if args.dropLast.any (fun a => a.head? == some ':') then
    .error "Only the last argument may start with a colon."
  else if args.dropLast.any (fun a => a.contains ' ') then
    .error "Only the last argument may contain a space."
  else
    .ok (joinSpace (command :: colonLast args))

/-- The disjunction of failure conditions named by the specification for
`IRCBot.format` (written from the claim text, for comparison with the
implementation): command or an argument empty, command not alphanumeric,
an argument containing NUL, CR or LF, a non-last argument with a leading
colon or a space. -/
def formatErrorCond (command : List Char) (args : List (List Char)) : Bool :=
  command.isEmpty || args.any List.isEmpty || !(command.all isAlnumAscii) ||
    args.any (fun a => a.any isBadArgChar) ||
    args.dropLast.any (fun a => a.head? == some ':' || a.contains ' ')

/-- The failure condition actually implemented by `IRCBot.format`: as the
specified one, except that the alphanumeric and bad-character checks are
the Python regex matches, which tolerate one trailing line feed. -/
def formatErrorCondImpl (command : List Char) (args : List (List Char)) : Bool :=
  (command :: args).any List.isEmpty ||
    !(matchPlusDollar isAlnumAscii command) ||
    !(args.all fun a => matchPlusDollar (fun c => !isBadArgChar c) a) ||
    args.dropLast.any (fun a => a.head? == some ':') ||
    args.dropLast.any (fun a => a.contains ' ')

/-- After the sender prefix, the regex of `IRCBot.parse` requires one or
more spaces followed by at least one further character (the command, which
is `[^ ]+`).  `restOk` holds exactly when the remaining input starts with
a space and is not spaces only. -/
def restOk (l : List Char) : Bool :=
  l.head? = some ' ' && !(l.dropWhile (fun c => c = ' ')).isEmpty

/-- Drops the run of spaces matched greedily by a run of the space
character in the regex of `IRCBot.parse`. -/
def dropSpaces (l : List Char) : List Char :=
  l.dropWhile (fun c => c = ' ')

/-- The lazy host group of the sender regex of `IRCBot.parse`
(the group after the at sign, followed by one or more spaces): the
host is the shortest prefix after which the rest of the line can still be
matched.  Returns the host and the input after the space run. -/
def findHost : List Char → Option (List Char × List Char)
  | [] => none
  | c :: t =>
    if restOk (c :: t) then some ([], dropSpaces (c :: t))
    else (findHost t).map (fun pr => (c :: pr.1, pr.2))

/-- The lazy user group of the sender regex of `IRCBot.parse` (the group
between the exclamation mark and the at sign): the user is the shortest
prefix followed by an at sign after which a host can be matched.  Note the
lazy group can cross spaces while searching for the at sign, exactly as
the Python regex backtracks. -/
def findUserHost : List Char → Option (List Char × List Char × List Char)
  | [] => none
  | c :: t =>
    if c = '@' then
      match findHost t with
      | some (h, r) => some ([], h, r)
      | none => (findUserHost t).map (fun pr => (c :: pr.1, pr.2))
    else (findUserHost t).map (fun pr => (c :: pr.1, pr.2))

/-- The inner optional sender group of `IRCBot.parse` without the
user part: requires an at sign immediately, then a host. -/
def tryInnerNoBang (l : List Char) : Option (List Char × List Char × List Char) :=
  match l with
  | [] => none
  | c :: t =>
    if c = '@' then (findHost t).map (fun pr => ([], pr.1, pr.2))
    else none

/-- The inner optional sender group of `IRCBot.parse`: first with the
user part (requires an exclamation mark immediately), then without it.
Returns (user, host, rest). -/
def tryInner (l : List Char) : Option (List Char × List Char × List Char) :=
  match l with
  | [] => none
  | c :: t =>
    if c = '!' then
      match findUserHost t with
      | some r => some r
      | none => tryInnerNoBang (c :: t)
    else tryInnerNoBang (c :: t)

/-- The lazy nickname group of the sender regex of `IRCBot.parse`: the
nickname is the shortest prefix at whose end either the inner
user/host group matches (tried first) or the closing space run follows
immediately.  Returns (nick, (user, host, rest)). -/
def findSenderEnd : List Char → Option (List Char × (List Char × List Char × List Char))
  | [] => none
  | c :: t =>
    match tryInner (c :: t) with
    | some r => some ([], r)
    | none =>
      if restOk (c :: t) then some ([], ([], [], dropSpaces (c :: t)))
      else (findSenderEnd t).map (fun pr => (c :: pr.1, pr.2))

/-- The middle-argument group of the regex of `IRCBot.parse`,
`(?:SP+ [^: ][^ ]*){0,14}` matched greedily: up to `n` words, each
preceded by at least one space, starting with a character that is neither
a colon nor a space.  Returns the words and the unconsumed input. -/
def parseMiddle : ℕ → List Char → (List (List Char) × List Char)
  | 0, l => ([], l)
  | n + 1, l =>
    if (l.takeWhile (fun c => c = ' ')).isEmpty then ([], l)
    else
      match l.dropWhile (fun c => c = ' ') with
      | [] => ([], l)
      | c :: t =>
        if c = ':' then ([], l)
        else
          let w := c :: t.takeWhile (fun c => c ≠ ' ')
          let (ws, fin) := parseMiddle n (t.dropWhile (fun c => c ≠ ' '))
          (w :: ws, fin)

/-- The trailing group of the regex of `IRCBot.parse`,
`(?:SP+ :? (.*))?`: after at least one space, an optional colon is
stripped and everything else is the trailing argument (the empty list both
for an absent group and for an empty trailing argument, matching the
falsiness test `if trailing:` in the Python code). -/
def parseTrailing (l : List Char) : List Char :=
  if l.head? = some ' ' then
    let r := dropSpaces l
    if r.head? = some ':' then r.tail else r
  else []

/-- The result of `IRCBot.parse`: a `Message` whose sender is a `Sender`
with `username` and `hostname` attributes (the regex groups default to the
empty string via `match.groups("")`). -/
structure ParsedMsg where
  sender : List Char
  username : List Char
  hostname : List Char
  command : List Char
  args : List (List Char)
deriving DecidableEq

/-- `IRCBot.parse(message)` from `pyrcb2.py`: the optional sender prefix
(only attempted when the line starts with a colon; when the prefix group
cannot match, the regex drops it and the command starts at the colon),
then the command (`[^ ]+`), up to 14 middle arguments, and an optional
trailing argument appended only when nonempty.  `none` models the regex
failing to match at all (in which case the Python code raises). -/
def parse (line : List Char) : Option ParsedMsg :=
  let senderRest : (List Char × List Char × List Char) × List Char :=
    if line.head? = some ':' then
      match findSenderEnd line.tail with
      | some (n, u, h, r) => ((n, u, h), r)
      | none => (([], [], []), line)
    else (([], [], []), line)
  let rest := senderRest.2
  let cmd := rest.takeWhile (fun c => c ≠ ' ')
  if cmd.isEmpty then none
  else
    let after := rest.dropWhile (fun c => c ≠ ' ')
    let mid := parseMiddle 14 after
    let trailing := parseTrailing mid.2
    some
      { sender := senderRest.1.1
        username := senderRest.1.2.1
        hostname := senderRest.1.2.2
        command := cmd
        args := mid.1 ++ if trailing.isEmpty then [] else [trailing] }

/-- UTF-8 byte length of a piece of text. -/
def utf8Len (g : List Char) : ℕ :=
  (g.map Char.utf8Size).sum

/-- The greedy prefix taken by `IRCBot._split_bytes_by_code_points`:
the longest prefix of whole code points fitting in `bytelen - used`
bytes, together with the remainder. -/
def chunkPrefix (bytelen : ℕ) : List Char → ℕ → (List Char × List Char)
  | [], _ => ([], [])
  | c :: t, used =>
    if used + c.utf8Size ≤ bytelen then
      let pr := chunkPrefix bytelen t (used + c.utf8Size)
      (c :: pr.1, pr.2)
    else ([], c :: t)

/-- `IRCBot._split_bytes_by_code_points(bytestr, bytelen)`: repeatedly
cut the longest prefix of whole code points taking at most `bytelen`
bytes.  When a single code point exceeds `bytelen` the Python loop makes
no progress and never terminates; that is modelled as `none`.  `fuel`
bounds the recursion and is always sufficient when called with
`g.length + 1`. -/
def splitChunks (bytelen : ℕ) : ℕ → List Char → Option (List (List Char))
  | 0, _ => none
  | fuel + 1, g =>
    if utf8Len g ≤ bytelen then some [g]
    else
      let pr := chunkPrefix bytelen g 0
      if pr.1.isEmpty then none
      else (splitChunks bytelen fuel pr.2).map (pr.1 :: ·)

/-- The ways the generator `IRCBot._split_string` can fail to produce a
list of pieces. -/
inductive SplitErr where
  /-- The Python code evaluates `space_index <= nonspace` with `nonspace`
  still `None` (the pending piece is entirely spaces), raising
  `TypeError`. -/
  | typeErr
  /-- `_split_bytes_by_code_points` loops forever because a single code
  point exceeds the byte limit. -/
  | nonTerm
  /-- `ValueError` for a nonpositive byte length. -/
  | valueErr
deriving DecidableEq

/-- The main loop of the generator `IRCBot._split_string`, over the
grapheme stream of the input.  State: the graphemes not yet consumed
(head is the current grapheme), the accumulated piece (a list of
graphemes), its byte length, the index and byte index of the last space
grapheme of the piece (`space_index` / `space_byte_index`, together),
and the index of the first non-space grapheme (`nonspace`).

The branch in which the current piece is empty and the current grapheme
alone exceeds the limit composes the forced grapheme split with the
immediately following append of its final part, which the Python loop
performs on its next iteration; all other branches mirror the source
line by line. -/
def splitLoop (bytelen : ℕ) (nobreak : Bool) :
    ℕ → List (List Char) → List (List Char) → ℕ → Option (ℕ × ℕ) → Option ℕ →
    Except SplitErr (List (List Char))
  | _, [], piece, _, _, _ => .ok [piece.flatten]
  | 0, _ :: _, _, _, _, _ =>
    -- never reached: every iteration shrinks (graphemes, piece) in
    -- lexicographic order, and the caller passes enough fuel
    .error .nonTerm
  | fuel + 1, g :: gs, piece, pieceLen, spaceIdx, nonspace =>
    if pieceLen + utf8Len g ≤ bytelen then
      -- the grapheme fits: append it and update the space bookkeeping
      let piece' := piece ++ [g]
      let pieceLen' := pieceLen + utf8Len g
      if g = [' '] then
        splitLoop bytelen nobreak fuel gs piece' pieceLen'
          (some (piece'.length - 1, pieceLen' - 1)) nonspace
      else
        splitLoop bytelen nobreak fuel gs piece' pieceLen' spaceIdx
          (match nonspace with
           | none => some (piece'.length - 1)
           | some k => some k)
    else if piece.isEmpty then
      -- forced to split the grapheme itself
      match splitChunks bytelen (g.length + 1) g with
      | none => .error .nonTerm
      | some parts =>
        (splitLoop bytelen nobreak fuel gs [parts.getLastD []]
            (utf8Len (parts.getLastD [])) spaceIdx (some 0)).map
          (fun out => parts.dropLast ++ out)
    else if nobreak then
      if g = [' '] then
        -- skip the overflowing space grapheme, then emit the piece
        (splitLoop bytelen nobreak fuel gs [] 0 none none).map (piece.flatten :: ·)
      else
        match spaceIdx, nonspace with
        | some si, some ns =>
          -- break at the last space of the piece
          let newPiece := piece.drop (si.1 + 1)
          let yielded := piece.take (si.1 + if si.1 ≤ ns then 1 else 0)
          (splitLoop bytelen nobreak fuel (g :: gs) newPiece (pieceLen - si.2 - 1)
              none none).map (yielded.flatten :: ·)
        | some _, none =>
          -- Python: `space_index <= nonspace` with nonspace None: TypeError
          .error .typeErr
        | none, _ =>
          (splitLoop bytelen nobreak fuel (g :: gs) [] 0 none none).map (piece.flatten :: ·)
    else
      (splitLoop bytelen nobreak fuel (g :: gs) [] 0 none none).map (piece.flatten :: ·)

/-- `IRCBot._split_string(string, bytelen, nobreak)`, driven by the
grapheme stream of the input string.  The fuel bounds the number of loop
iterations; `(length + 1) * (length + 2)` dominates the length of any
chain decreasing lexicographically in (remaining graphemes, piece size),
so the fuel is never exhausted. -/
def split_string_impl (gs : List (List Char)) (bytelen : ℕ) (nobreak : Bool) :
    Except SplitErr (List (List Char)) :=
  if bytelen = 0 then .error .valueErr
  else if utf8Len gs.flatten ≤ bytelen then .ok [gs.flatten]
  else splitLoop bytelen nobreak ((gs.length + 1) * (gs.length + 2)) gs [] 0 none none

/-- `IRCBot.split_string(string, bytelen, nobreak, once=False)`:
`list(cls._split_string(string, bytelen, nobreak))` for a nonempty
string (for the empty string Python returns the string itself). -/
def split_string (gs : List (List Char)) (bytelen : ℕ) (nobreak : Bool) :
    Except SplitErr (List (List Char)) :=
  if gs.flatten.isEmpty then .ok []
  else split_string_impl gs bytelen nobreak

/-- Modelled from the spec: the grapheme segmentation of `graphemes.py`
consults the generated Unicode table `grapheme_break_db`, which is not
under `src/`.  For ASCII text (no combining marks, no CR LF pairs) every
character is its own grapheme cluster. -/
def asciiGraphemes (s : List Char) : List (List Char) :=
  s.map (fun c => [c])

/-- A constructed `Message` object from `messages.py`.  The class defines
`__hash__` (from the component tuple, whose sender and command are `IStr`
and hash by their IRC-lowercase form) but does not define `__eq__`, so
Python compares `Message` objects by object identity; `oid` stands for the
identity of the constructed object, and separately constructed objects
have distinct `oid`. -/
structure MessageObj where
  oid : ℕ
  sender : String
  command : String
  args : List String
deriving DecidableEq

/-- Equality of `Message` objects as Python evaluates `m1 == m2`: objects
are compared by identity because `Message` does not override `__eq__`. -/
def messageEq (a b : MessageObj) : Bool :=
  a.oid == b.oid

/-- The hash key of a `Message`: Python hashes the component tuple, whose
sender and command are `IStr` values hashing by their IRC-lowercase form.
Messages with equal hash keys have equal Python hash values. -/
def messageHashKey (m : MessageObj) : List String :=
  ircLower m.sender :: ircLower m.command :: m.args

/-! ### Pattern matching: the implementation agrees with the declarative walk -/

/-- The per-position comparison of the implementation is exactly the one of
the specification walk. -/
theorem argTest_eq_argTestSpec : @argTest = @argTestSpec := by
  funext nick i pa marg
  cases pa <;> rfl

/-- The declarative walk fails whenever the message is longer than the
pattern and the pattern contains no `ANY_ARGS`. -/
theorem specWalk_of_longer (nick : Option String) :
    ∀ (pa : List PatArg) (margs : Msg) (i : ℕ),
      pa.length < margs.length → pa.any PatArg.isAnyArgs = false →
      specWalk nick margs pa i = false := by
  intro pa
  induction pa with
  | nil =>
    intro margs i hlen _
    cases margs with
    | nil => simp at hlen
    | cons m mr => simp [specWalk]
  | cons pahd rest ih =>
    intro margs i hlen hany
    cases margs with
    | nil => simp at hlen
    | cons m mr =>
      have hrest : specWalk nick mr rest (i + 1) = false := by
        apply ih
        · simp at hlen ⊢; omega
        · simp [List.any_cons] at hany ⊢; exact hany.2
      cases pahd with
      | any => simpa [specWalk] using hrest
      | anyArgs => simp [List.any_cons, PatArg.isAnyArgs] at hany
      | self => simp [specWalk, hrest]
      | lit s => simp [specWalk, hrest]
      | mem l => simp [specWalk, hrest]
      | pred f => simp [specWalk, hrest]

/-- On the region where the up-front length check of `matches_pattern`
passes (message not longer than pattern, or `ANY_ARGS` present), the
indexed loop of the implementation computes the declarative walk on the
remaining message components. -/
theorem walkArgs_eq_specWalk (nick : Option String) (message : Msg) :
    ∀ (pa : List PatArg) (i : ℕ),
      ((message.drop i).length ≤ pa.length ∨ pa.any PatArg.isAnyArgs = true) →
      walkArgs nick message pa i = specWalk nick (message.drop i) pa i := by
  intro pa
  induction pa with
  | nil =>
    intro i hcond
    rcases hcond with hlen | hany
    · have : message.drop i = [] := by
        cases hdrop : message.drop i with
        | nil => rfl
        | cons a l => rw [hdrop] at hlen; simp at hlen
      simp [walkArgs, specWalk, this]
    · simp at hany
  | cons pahd rest ih =>
    intro i hcond
    have hnext : (message.drop (i + 1)).length ≤ rest.length ∨
        rest.any PatArg.isAnyArgs = true ∨ pahd.isAnyArgs = true := by
      rcases hcond with hlen | hany
      · left
        simp [List.length_drop] at hlen ⊢
        omega
      · rw [List.any_cons, Bool.or_eq_true] at hany
        rcases hany with h | h
        · right; right; exact h
        · right; left; exact h
    cases pahd with
    | any =>
      have := ih (i + 1) (by
        rcases hnext with h | h | h
        · left; exact h
        · right; exact h
        · simp [PatArg.isAnyArgs] at h)
      simpa [walkArgs, specWalk, List.tail_drop] using this
    | anyArgs =>
      cases hdrop : message.drop i with
      | nil => simp [walkArgs, specWalk]
      | cons a l => simp [walkArgs, specWalk]
    | self =>
      by_cases h : i < message.length
      · rw [List.drop_eq_getElem_cons h]
        have := ih (i + 1) (by
          rcases hnext with hc | hc | hc
          · left; exact hc
          · right; exact hc
          · simp [PatArg.isAnyArgs] at hc)
        simp [walkArgs, specWalk, h, this, argTest_eq_argTestSpec]
      · have : message.drop i = [] := by
          apply List.drop_eq_nil_of_le
          omega
        simp [walkArgs, specWalk, h, this]
    | lit s =>
      by_cases h : i < message.length
      · rw [List.drop_eq_getElem_cons h]
        have := ih (i + 1) (by
          rcases hnext with hc | hc | hc
          · left; exact hc
          · right; exact hc
          · simp [PatArg.isAnyArgs] at hc)
        simp [walkArgs, specWalk, h, this, argTest_eq_argTestSpec]
      · have : message.drop i = [] := by
          apply List.drop_eq_nil_of_le
          omega
        simp [walkArgs, specWalk, h, this]
    | mem l =>
      by_cases h : i < message.length
      · rw [List.drop_eq_getElem_cons h]
        have := ih (i + 1) (by
          rcases hnext with hc | hc | hc
          · left; exact hc
          · right; exact hc
          · simp [PatArg.isAnyArgs] at hc)
        simp [walkArgs, specWalk, h, this, argTest_eq_argTestSpec]
      · have : message.drop i = [] := by
          apply List.drop_eq_nil_of_le
          omega
        simp [walkArgs, specWalk, h, this]
    | pred f =>
      by_cases h : i < message.length
      · rw [List.drop_eq_getElem_cons h]
        have := ih (i + 1) (by
          rcases hnext with hc | hc | hc
          · left; exact hc
          · right; exact hc
          · simp [PatArg.isAnyArgs] at hc)
        simp [walkArgs, specWalk, h, this, argTest_eq_argTestSpec]
      · have : message.drop i = [] := by
          apply List.drop_eq_nil_of_le
          omega
        simp [walkArgs, specWalk, h, this]

/-- C1: for every message M, pattern P, and bot nickname N,
`matches_pattern M P N` returns true iff: when P is a callable, P applied
to M is truthy; otherwise, walking positions left to right, every `ANY`
placeholder matches unconditionally, an `ANY_ARGS` placeholder immediately
succeeds for all remaining positions, a `SELF` placeholder requires the
message value at that position to equal N case-insensitively, a
set/list/tuple requires membership, a per-position callable must return
truthy on that single argument, and any other pattern value must equal the
message value (case-insensitively for positions 0 and 1, exactly for later
positions); a message with positions remaining after P is exhausted fails
unless an `ANY_ARGS` placeholder absorbed the excess (an `ANY` placeholder
occupies a single position and never absorbs extra trailing components).
Formally: `matches_pattern` coincides with the declarative walk
`matchesSpec` built from that description. -/
theorem matches_pattern_correct :
    ∀ (message : Msg) (pattern : Pattern) (nick : Option String),
      matches_pattern message pattern nick = matchesSpec message pattern nick := by
  intro message pattern nick
  cases pattern with
  | callable f => rfl
  | args pa =>
    simp only [matches_pattern, matchesSpec]
    by_cases hlen : pa.length < message.length
    · by_cases hany : pa.any PatArg.isAnyArgs = true
      · have hwalk := walkArgs_eq_specWalk nick message pa 0 (Or.inr hany)
        simp only [List.drop_zero] at hwalk
        simp [hany, hwalk]
      · have hany' : pa.any PatArg.isAnyArgs = false := by
          simpa using hany
        have hspec := specWalk_of_longer nick pa message 0 hlen hany'
        simp [hany', hlen, hspec]
    · have hwalk := walkArgs_eq_specWalk nick message pa 0 (Or.inl (by
        simp only [List.drop_zero]
        omega))
      simp only [List.drop_zero] at hwalk
      have : decide (message.length > pa.length) = false := by
        simp
        omega
      simp [this, hwalk]

/-! ### The wait engine -/

/-- C10: in every iteration of the wait loop, a received message is tested
against the error patterns before the expected patterns and before the
capture patterns; therefore, whenever the next event delivers (within the
deadline) a message that matches an error pattern -- in particular one
that also matches an expected pattern -- the wait terminates
unsuccessfully with that message as the error and cause "message", and the
message is not appended to the captured list (the result carries the
accumulator unchanged). -/
theorem waitLoop_error_precedence
    (nick : Option String) (expected errors capture : List Pattern)
    (matchAll : Bool) (endTime : Option ℤ) (captured : List Msg)
    (now t : ℤ) (rest : List (ℤ × Option Msg)) (m : Msg)
    (hok : ∀ e, endTime = some e → now < e ∧ t ≤ e)
    (herr : matches_any_pattern m errors = true)
    (_hexp : ∃ p ∈ expected, matches_pattern m p nick = true) :
    waitLoop nick errors capture matchAll endTime expected captured now
        ((t, some m) :: rest)
      = some { success := false, value := none, error := some m,
               error_cause := some "message", messages := some captured } := by
  cases endTime with
  | none => simp [waitLoop, herr, WaitResult.make]
  | some e =>
    obtain ⟨h1, h2⟩ := hok e rfl
    have hc1 : ¬(e - now ≤ 0) := by omega
    have hc2 : ¬(e < t) := by omega
    simp [waitLoop, herr, hc1, hc2, WaitResult.make]

/-- Witness for `waitLoop_error_precedence` at a concrete state. -/
theorem waitLoop_error_precedence_witness :
    waitLoop none [Pattern.args [PatArg.anyArgs]] [] false none
        [Pattern.args [PatArg.anyArgs]] [] 0 [((0:ℤ), some ["s", "CMD"])]
      = some { success := false, value := none, error := some ["s", "CMD"],
               error_cause := some "message", messages := some [] } :=
  waitLoop_error_precedence none [Pattern.args [PatArg.anyArgs]]
    [Pattern.args [PatArg.anyArgs]] [] false none [] 0 0 [] ["s", "CMD"]
    (fun e h => by cases h) (by decide)
    ⟨Pattern.args [PatArg.anyArgs], List.mem_cons_self _ _, by decide⟩

/-- With `match_all=False` and a deadline set, a trace whose events within
the deadline are all messages matching neither the expected nor the error
patterns drives the wait loop to a timeout result. -/
theorem waitLoop_timeout_of_no_match (nick : Option String)
    (errors capture : List Pattern) (endT : ℤ) (expected : List Pattern) :
    ∀ (events : List (ℤ × Option Msg)) (captured : List Msg) (now : ℤ),
      expected ≠ [] →
      (∀ te ∈ events, te.1 ≤ endT →
        ∃ m, te.2 = some m ∧
          expected.any (fun p => matches_pattern m p nick) = false ∧
          matches_any_pattern m errors = false) →
      ∃ r, waitLoop nick errors capture false (some endT) expected captured now events
          = some r ∧ r.success = false ∧ r.error_cause = some "timeout" := by
  intro events
  induction events with
  | nil =>
    intro captured now _ _
    by_cases h0 : endT - now ≤ 0
    · exact ⟨WaitResult.make false none none (some "timeout") none,
        by simp [waitLoop, h0], rfl, rfl⟩
    · exact ⟨WaitResult.make false none none (some "timeout") (some captured),
        by simp [waitLoop, h0], rfl, rfl⟩
  | cons te rest ih =>
    intro captured now hexp hev
    obtain ⟨t, ev⟩ := te
    by_cases h0 : endT - now ≤ 0
    · exact ⟨WaitResult.make false none none (some "timeout") none,
        by simp [waitLoop, h0], rfl, rfl⟩
    · by_cases h1 : endT < t
      · exact ⟨WaitResult.make false none none (some "timeout") (some captured),
          by simp [waitLoop, h0, h1], rfl, rfl⟩
      · have hle : t ≤ endT := by omega
        obtain ⟨m, hm, hnomatch, hnoerr⟩ := hev (t, ev) (List.mem_cons_self _ _) hle
        subst hm
        obtain ⟨r, hr, hs, hc⟩ := ih
          (if matches_any_pattern m capture then captured ++ [m] else captured) t hexp
          (fun te' hte' => hev te' (List.mem_cons_of_mem _ hte'))
        refine ⟨r, ?_, hs, hc⟩
        have hne : expected.isEmpty = false := by
          cases expected with
          | nil => exact absurd rfl hexp
          | cons a l => rfl
        simp only [waitLoop, h0, h1, hnoerr, hnomatch]
        simpa [hne] using hr

/-- C3: for every `wait_for` call (with at least one expected pattern) and
positive timeout T, if no message matching an expected pattern and no
message matching an error pattern arrives within T of the wait starting,
the call returns an unsuccessful `WaitResult` with `error_cause` equal to
"timeout".  The deadline is fixed once at wait start (`start + T`) and
each iteration recomputes the read timeout as deadline minus current time,
so arbitrarily many slowly arriving non-matching messages cannot extend
the overall deadline. -/
theorem wait_for_timeout (nick : Option String) (expected errors : List Pattern)
    (capture : CaptureSpec) (T default_timeout start : ℤ)
    (events : List (ℤ × Option Msg))
    (hT : 0 < T) (hexp : expected ≠ [])
    (hev : ∀ te ∈ events, te.1 ≤ start + T →
      ∃ m, te.2 = some m ∧
        expected.any (fun p => matches_pattern m p nick) = false ∧
        matches_any_pattern m errors = false) :
    ∃ r, wait_for nick expected errors capture (some T) default_timeout start events
        = some r ∧ r.success = false ∧ r.error_cause = some "timeout" := by
  have hT' : ¬(T ≤ 0) := by omega
  obtain ⟨r, hr, hs, hc⟩ :=
    waitLoop_timeout_of_no_match nick errors
      (match capture with
        | CaptureSpec.all => expected
        | CaptureSpec.pats l => l)
      (start + T) expected events [] start hexp hev
  refine ⟨r, ?_, hs, hc⟩
  simpa [wait_for, wait_for_impl, hT'] using hr

/-- Witness for `wait_for_timeout`: one non-matching message arrives
before the deadline, the only matching message arrives after it. -/
theorem wait_for_timeout_witness :
    ∃ r, wait_for none [Pattern.args [PatArg.any, PatArg.lit "PONG"]] []
        (CaptureSpec.pats []) (some 2) 10 0
        [((1:ℤ), some ["s", "NOTICE"]), ((5:ℤ), some ["s", "PONG"])]
        = some r ∧ r.success = false ∧ r.error_cause = some "timeout" := by
  apply wait_for_timeout
  · decide
  · exact List.cons_ne_nil _ _
  · intro te hte hle
    simp only [List.mem_cons, List.not_mem_nil, or_false] at hte
    rcases hte with rfl | rfl
    · exact ⟨["s", "NOTICE"], rfl, by decide, by decide⟩
    · exact absurd hle (by decide)

/-- Necessity half for `wait_for_all`: if the loop (with `match_all=True`
and no deadline) returns success on a trace of messages, then some
consumed prefix of the trace matches every expected pattern, and the
result's message list is the accumulator extended with exactly the members
of that prefix matching a capture pattern. -/
theorem waitLoop_all_success_necessity (nick : Option String)
    (errors capture : List Pattern) :
    ∀ (ms : List Msg) (expected : List Pattern) (captured : List Msg)
      (now : ℤ) (r : WaitResult),
      waitLoop nick errors capture true none expected captured now
          (ms.map fun m => ((0:ℤ), some m)) = some r →
      r.success = true →
      ∃ n, (∀ p ∈ expected, ∃ m ∈ ms.take n, matches_pattern m p nick = true) ∧
        r.messages = some (captured ++
          (ms.take n).filter (fun m => matches_any_pattern m capture)) := by
  intro ms
  induction ms with
  | nil =>
    intro expected captured now r hrun _
    simp [waitLoop] at hrun
  | cons m rest ih =>
    intro expected captured now r hrun hsucc
    rw [List.map_cons] at hrun
    by_cases herr : matches_any_pattern m errors = true
    · rw [show waitLoop nick errors capture true none expected captured now
          (((0:ℤ), some m) :: rest.map fun m => ((0:ℤ), some m))
          = some (WaitResult.make false none (some m) none (some captured)) by
            simp [waitLoop, herr]] at hrun
      obtain rfl : WaitResult.make false none (some m) none (some captured) = r :=
        Option.some_injective _ hrun
      simp [WaitResult.make] at hsucc
    · have herr' : matches_any_pattern m errors = false := by simpa using herr
      by_cases hemp : (expected.filter fun p => !(matches_pattern m p nick)).isEmpty = true
      · rw [show waitLoop nick errors capture true none expected captured now
            (((0:ℤ), some m) :: rest.map fun m => ((0:ℤ), some m))
            = some (WaitResult.make true none none none (some
                (if matches_any_pattern m capture then captured ++ [m] else captured))) by
              simp [waitLoop, herr', hemp]] at hrun
        obtain rfl := Option.some_injective _ hrun
        refine ⟨1, ?_, ?_⟩
        · intro p hp
          refine ⟨m, by simp, ?_⟩
          rw [List.isEmpty_iff, List.filter_eq_nil_iff] at hemp
          have := hemp p hp
          simpa using this
        · by_cases hcap : matches_any_pattern m capture = true <;>
            simp [WaitResult.make, hcap]
      · have hrun' : waitLoop nick errors capture true none
            (expected.filter fun p => !(matches_pattern m p nick))
            (if matches_any_pattern m capture then captured ++ [m] else captured) 0
            (rest.map fun m => ((0:ℤ), some m)) = some r := by
          rw [show waitLoop nick errors capture true none expected captured now
              (((0:ℤ), some m) :: rest.map fun m => ((0:ℤ), some m))
              = waitLoop nick errors capture true none
                  (expected.filter fun p => !(matches_pattern m p nick))
                  (if matches_any_pattern m capture then captured ++ [m] else captured) 0
                  (rest.map fun m => ((0:ℤ), some m)) by
                simp [waitLoop, herr', hemp]] at hrun
          exact hrun
        obtain ⟨n, hall, hmsgs⟩ := ih _ _ 0 r hrun' hsucc
        refine ⟨n + 1, ?_, ?_⟩
        · intro p hp
          by_cases hm : matches_pattern m p nick = true
          · exact ⟨m, by simp, hm⟩
          · have hpfil : p ∈ expected.filter fun p => !(matches_pattern m p nick) := by
              rw [List.mem_filter]
              exact ⟨hp, by simpa using hm⟩
            obtain ⟨m', hm'mem, hm'⟩ := hall p hpfil
            exact ⟨m', by simp [List.take_succ_cons]; right; exact hm'mem, hm'⟩
        · rw [hmsgs]
          by_cases hcap : matches_any_pattern m capture = true <;>
            simp [List.take_succ_cons, List.filter_cons, hcap]

/-- Sufficiency half for `wait_for_all`: with `match_all=True`, no
deadline, at least one expected pattern, every expected pattern matched by
some message of the trace, and no message matching an error pattern, the
loop returns success -- in whatever order the matching messages arrive. -/
theorem waitLoop_all_success_complete (nick : Option String)
    (errors capture : List Pattern) :
    ∀ (ms : List Msg) (expected : List Pattern) (captured : List Msg) (now : ℤ),
      expected ≠ [] →
      (∀ p ∈ expected, ∃ m ∈ ms, matches_pattern m p nick = true) →
      (∀ m ∈ ms, matches_any_pattern m errors = false) →
      ∃ r, waitLoop nick errors capture true none expected captured now
          (ms.map fun m => ((0:ℤ), some m)) = some r ∧ r.success = true := by
  intro ms
  induction ms with
  | nil =>
    intro expected captured now hne hwit _
    cases expected with
    | nil => exact absurd rfl hne
    | cons p ps =>
      obtain ⟨m, hm, _⟩ := hwit p (List.mem_cons_self _ _)
      simp at hm
  | cons m rest ih =>
    intro expected captured now hne hwit herr
    have herrm : matches_any_pattern m errors = false :=
      herr m (List.mem_cons_self _ _)
    by_cases hemp : (expected.filter fun p => !(matches_pattern m p nick)).isEmpty = true
    · refine ⟨WaitResult.make true none none none
        (some (if matches_any_pattern m capture then captured ++ [m] else captured)),
        ?_, rfl⟩
      simp [waitLoop, herrm, hemp]
    · obtain ⟨r, hr, hs⟩ := ih (expected.filter fun p => !(matches_pattern m p nick))
        (if matches_any_pattern m capture then captured ++ [m] else captured) 0
        (by simpa using hemp)
        (by
          intro p hp
          rw [List.mem_filter] at hp
          obtain ⟨hpe, hpm⟩ := hp
          obtain ⟨m', hm'mem, hm'⟩ := hwit p hpe
          rcases List.mem_cons.mp hm'mem with rfl | hm'rest
          · rw [hm'] at hpm
            simp at hpm
          · exact ⟨m', hm'rest, hm'⟩)
        (fun m' hm' => herr m' (List.mem_cons_of_mem _ hm'))
      refine ⟨r, ?_, hs⟩
      rw [List.map_cons]
      rw [show waitLoop nick errors capture true none expected captured now
          (((0:ℤ), some m) :: rest.map fun m => ((0:ℤ), some m))
          = waitLoop nick errors capture true none
              (expected.filter fun p => !(matches_pattern m p nick))
              (if matches_any_pattern m capture then captured ++ [m] else captured) 0
              (rest.map fun m => ((0:ℤ), some m)) by
            simp [waitLoop, herrm, hemp]]
      exact hr

/-- C2: for every sequence of received messages and every `wait_for_all`
call with a non-empty list of expected patterns, the wait returns a
successful `WaitResult` only after every expected pattern has been matched
by at least one observed message (each pattern is removed from the
outstanding list when first matched, and a message matching an
already-removed pattern does not change the outstanding list), and the
result's message list contains exactly the messages matching the capture
patterns -- the expected patterns themselves under `capture=True` -- and
excludes other matches.  Conversely, whatever the arrival order, if every
expected pattern is matched by some message of the trace and no message
matches an error pattern, the wait succeeds. -/
theorem wait_for_all_correct (nick : Option String)
    (expected errors : List Pattern) (ms : List Msg)
    (default_timeout start : ℤ) (hne : expected ≠ []) :
    (∀ r, wait_for_all nick expected errors CaptureSpec.all (some 0)
        default_timeout start (ms.map fun m => ((0:ℤ), some m)) = some r →
      r.success = true →
      ∃ n, (∀ p ∈ expected, ∃ m ∈ ms.take n, matches_pattern m p nick = true) ∧
        r.messages = some
          ((ms.take n).filter (fun m => matches_any_pattern m expected)))
    ∧ ((∀ p ∈ expected, ∃ m ∈ ms, matches_pattern m p nick = true) →
       (∀ m ∈ ms, matches_any_pattern m errors = false) →
       ∃ r, wait_for_all nick expected errors CaptureSpec.all (some 0)
          default_timeout start (ms.map fun m => ((0:ℤ), some m)) = some r ∧
         r.success = true) := by
  constructor
  · intro r hrun hsucc
    have hrun' : waitLoop nick errors expected true none expected [] start
        (ms.map fun m => ((0:ℤ), some m)) = some r := by
      simpa [wait_for_all, wait_for_impl] using hrun
    obtain ⟨n, h1, h2⟩ :=
      waitLoop_all_success_necessity nick errors expected ms expected [] start r hrun' hsucc
    exact ⟨n, h1, by simpa using h2⟩
  · intro hwit herr
    obtain ⟨r, hr, hs⟩ :=
      waitLoop_all_success_complete nick errors expected ms expected [] start hne hwit herr
    exact ⟨r, by simpa [wait_for_all, wait_for_impl] using hr, hs⟩

/-- Witness for `wait_for_all_correct`: two expected patterns, matched out
of order with an unrelated message in between. -/
theorem wait_for_all_correct_witness :
    ∃ r, wait_for_all (some "me")
        [Pattern.args [PatArg.any, PatArg.lit "A"],
         Pattern.args [PatArg.any, PatArg.lit "B"]]
        [] CaptureSpec.all (some 0) 1 0
        ([["s", "B"], ["s", "C"], ["s", "A"]].map fun m => ((0:ℤ), some m))
        = some r ∧ r.success = true := by
  apply (wait_for_all_correct (some "me")
    [Pattern.args [PatArg.any, PatArg.lit "A"],
     Pattern.args [PatArg.any, PatArg.lit "B"]]
    [] [["s", "B"], ["s", "C"], ["s", "A"]] 1 0 (List.cons_ne_nil _ _)).2
  · intro p hp
    simp only [List.mem_cons, List.not_mem_nil, or_false] at hp
    rcases hp with rfl | rfl
    · exact ⟨["s", "A"], by decide, by decide⟩
    · exact ⟨["s", "B"], by decide, by decide⟩
  · intro m _
    rfl

/-! ### The outbound pacing delay -/

/-- No-reset step of `get_and_update_delay`: when the call happens less
than `consecutive_timeout` after the last send and no later than the newly
scheduled time, the send is scheduled `min (consecutive * multiplier)
max_delay` after the previous one and the counter increments. -/
theorem get_and_update_delay_step (p : DelayParams) (lastTime : ℤ) (k : ℕ)
    (now : ℤ) (h1 : now - lastTime < p.consecutive_timeout)
    (h2 : now ≤ lastTime + min ((k : ℤ) * p.delay_multiplier) p.max_delay) :
    get_and_update_delay p (some (lastTime, k)) now
      = (lastTime + min ((k : ℤ) * p.delay_multiplier) p.max_delay - now,
         (lastTime + min ((k : ℤ) * p.delay_multiplier) p.max_delay, k + 1)) := by
  have hr : ¬ p.consecutive_timeout ≤ now - lastTime := by omega
  simp only [get_and_update_delay, Option.map_some', Option.getD_some, hr, if_false]
  rw [max_eq_left (sub_nonneg.mpr h2), max_eq_left h2]

/-- Reset step of `get_and_update_delay`: when at least
`consecutive_timeout` has elapsed since the last send (and the parameters
are nonnegative), the counter resets, the computed delay is zero, and the
new state records the current time with counter 1. -/
theorem get_and_update_delay_reset (p : DelayParams)
    (hT : 0 ≤ p.consecutive_timeout) (hC : 0 ≤ p.max_delay)
    (lastTime : ℤ) (k : ℕ) (now : ℤ)
    (h1 : p.consecutive_timeout ≤ now - lastTime) :
    get_and_update_delay p (some (lastTime, k)) now = (0, (now, 1)) := by
  simp only [get_and_update_delay, Option.map_some', Option.getD_some, h1, if_true]
  rw [Nat.cast_zero, zero_mul, min_eq_left hC, add_zero,
    max_eq_right (by omega : lastTime - now ≤ 0), max_eq_right (by omega : lastTime ≤ now)]

/-- For a prompt run of calls the realized states are exactly the ideal
schedule: consecutive scheduled send times differ by
`min (k * multiplier) max_delay` and the counter counts the sends. -/
theorem runStates_eq_idealStates (p : DelayParams) :
    ∀ (ts : List ℤ) (t0 : ℤ) (k : ℕ),
      promptRun p (t0, k) ts = true →
      runStates p (t0, k) ts = idealStates p t0 k ts.length := by
  intro ts
  induction ts with
  | nil => intro t0 k _; rfl
  | cons t ts ih =>
    intro t0 k hp
    simp only [promptRun, Bool.and_eq_true, decide_eq_true_eq] at hp
    obtain ⟨⟨h1, h2⟩, hrest⟩ := hp
    have hstep := get_and_update_delay_step p t0 k t h1 h2
    rw [List.length_cons]
    simp only [runStates, idealStates, hstep]
    congr 1
    apply ih
    rw [hstep] at hrest
    exact hrest

/-- C5: for every target, the computed delay before a send follows
`min (consecutive * multiplier) max_delay`, where the consecutive counter
resets to 0 when at least `consecutive_timeout` has elapsed since the
last send of that target; in particular, for N consecutive sends to the
same target with no reset occurring, send k is scheduled
`min (k * multiplier) max_delay)` after send k-1. -/
theorem get_and_update_delay_correct (p : DelayParams) :
    (∀ (lastTime : ℤ) (k : ℕ) (now : ℤ),
        now - lastTime < p.consecutive_timeout →
        now ≤ lastTime + min ((k : ℤ) * p.delay_multiplier) p.max_delay →
        get_and_update_delay p (some (lastTime, k)) now
          = (lastTime + min ((k : ℤ) * p.delay_multiplier) p.max_delay - now,
             (lastTime + min ((k : ℤ) * p.delay_multiplier) p.max_delay, k + 1)))
    ∧ (0 ≤ p.consecutive_timeout → 0 ≤ p.max_delay →
       ∀ (lastTime : ℤ) (k : ℕ) (now : ℤ),
        p.consecutive_timeout ≤ now - lastTime →
        get_and_update_delay p (some (lastTime, k)) now = (0, (now, 1)))
    ∧ (∀ (ts : List ℤ) (t0 : ℤ) (k : ℕ),
        promptRun p (t0, k) ts = true →
        runStates p (t0, k) ts = idealStates p t0 k ts.length) :=
  ⟨fun lastTime k now h1 h2 => get_and_update_delay_step p lastTime k now h1 h2,
   fun hT hC lastTime k now h1 => get_and_update_delay_reset p hT hC lastTime k now h1,
   fun ts t0 k hp => runStates_eq_idealStates p ts t0 k hp⟩

/-- Witness for `get_and_update_delay_correct` with multiplier 2, cap 5,
timeout 10: a second consecutive send is delayed by 2, a reset gives
delay 0, and three back-to-back sends are scheduled at the ideal times. -/
theorem get_and_update_delay_correct_witness :
    get_and_update_delay ⟨2, 5, 10⟩ (some (0, 1)) 0 = (2, (2, 2))
    ∧ get_and_update_delay ⟨2, 5, 10⟩ (some (6, 3)) 20 = (0, (20, 1))
    ∧ runStates ⟨2, 5, 10⟩ (0, 1) [0, 0, 0] = idealStates ⟨2, 5, 10⟩ 0 1 3 :=
  ⟨((get_and_update_delay_correct ⟨2, 5, 10⟩).1 0 1 0 (by decide) (by decide)).trans
      (by decide),
   (get_and_update_delay_correct ⟨2, 5, 10⟩).2.1 (by decide) (by decide) 6 3 20 (by decide),
   (get_and_update_delay_correct ⟨2, 5, 10⟩).2.2 [0, 0, 0] 0 1 (by decide)⟩

/-! ### The wire codec -/

/-- Distributing `List.any` over a disjunction of predicates. -/
theorem list_any_or {α : Type} (l : List α) (f g : α → Bool) :
    (l.any fun a => f a || g a) = (l.any f || l.any g) := by
  induction l with
  | nil => rfl
  | cons a l ih =>
    simp only [List.any_cons, ih]
    cases f a <;> cases g a <;> cases l.any f <;> cases l.any g <;> rfl

/-- A Boolean that is not true is false. -/
theorem bool_eq_false_of_ne {b : Bool} (h : ¬ b = true) : b = false := by
  cases b
  · rfl
  · exact absurd rfl h

/-- A string that is nonempty and all of whose characters lie in a class
excluding the line feed matches the Python regex of that class. -/
theorem matchPlusDollar_of_all (p : Char → Bool) (s : List Char)
    (hne : s ≠ []) (hall : ∀ c ∈ s, p c = true) (hp : p '\n' = false) :
    matchPlusDollar p s = true := by
  have hlast : s.getLast? ≠ some '\n' := by
    intro h
    rw [List.getLast?_eq_getLast s hne, Option.some.injEq] at h
    have hmem := List.getLast_mem hne
    rw [h] at hmem
    have := hall '\n' hmem
    rw [hp] at this
    exact Bool.false_ne_true this
  have hbody : pyDollarBody s = s := by
    unfold pyDollarBody
    rw [if_neg hlast]
  unfold matchPlusDollar
  rw [hbody, Bool.and_eq_true]
  constructor
  · cases s with
    | nil => exact absurd rfl hne
    | cons a t => rfl
  · rw [List.all_eq_true]
    exact hall

/-- Counterexample to C6 as stated: an argument that contains a line feed
must, per the claim, make `format` raise; but the Python dollar anchor
matches before a single trailing newline, so `format("CMD", ["x\n"])`
passes every check and returns the line `"CMD :x\n"`. -/
theorem format_newline_counterexample :
    formatErrorCond "CMD".toList ["x\n".toList] = true
    ∧ format "CMD".toList ["x\n".toList] = .ok "CMD :x\n".toList := by
  refine ⟨by decide, by decide⟩

/-- C6 (amended): `format(command, args)` raises a format error (so
nothing is queued or transmitted) if and only if the command or an
argument is empty, the command fails the regex of alphanumeric strings,
an argument fails the regex of NUL-, CR- and LF-free strings -- both
regexes tolerating one trailing line feed, because the Python dollar
anchor also matches before a trailing newline -- or a non-last argument
contains a space or starts with a colon; otherwise it returns the command
and the arguments joined by single spaces with the last argument prefixed
by a colon unconditionally.  Every input the specified condition accepts
is also accepted by the implemented condition: the two differ only on
strings whose single line feed is trailing. -/
theorem format_correct (command : List Char) (args : List (List Char)) :
    ((format command args).isOk = !(formatErrorCondImpl command args))
    ∧ (formatErrorCondImpl command args = false →
        format command args = .ok (joinSpace (command :: colonLast args)))
    ∧ (formatErrorCond command args = false →
        formatErrorCondImpl command args = false) := by
  have hspec : formatErrorCond command args = false →
      formatErrorCondImpl command args = false := by
    intro h
    unfold formatErrorCond at h
    simp only [Bool.or_eq_false_iff] at h
    obtain ⟨⟨⟨⟨hce, hae⟩, hcr⟩, har⟩, hdl⟩ := h
    rw [List.any_eq_false] at hae har hdl
    have hcmd_ne : command ≠ [] := by
      cases command with
      | nil => exact absurd hce (by decide)
      | cons a t => exact List.cons_ne_nil a t
    have hcmd_all : ∀ c ∈ command, isAlnumAscii c = true := by
      have hcr' : command.all isAlnumAscii = true := by
        cases hcb : command.all isAlnumAscii with
        | false => rw [hcb] at hcr; exact absurd hcr (by decide)
        | true => rfl
      rw [List.all_eq_true] at hcr'
      exact hcr'
    have hm2 : matchPlusDollar isAlnumAscii command = true :=
      matchPlusDollar_of_all isAlnumAscii command hcmd_ne hcmd_all (by decide)
    have hm3 : (args.all fun a => matchPlusDollar (fun c => !isBadArgChar c) a) = true := by
      rw [List.all_eq_true]
      intro a ha
      have ha_ne : a ≠ [] := by
        have := hae a ha
        cases a with
        | nil => exact (this rfl).elim
        | cons x t => exact List.cons_ne_nil x t
      have ha_chars : ∀ c ∈ a, (!isBadArgChar c) = true := by
        intro c hc
        have h1 := bool_eq_false_of_ne (har a ha)
        rw [List.any_eq_false] at h1
        have h2 := bool_eq_false_of_ne (h1 c hc)
        rw [h2]
        rfl
      exact matchPlusDollar_of_all _ a ha_ne ha_chars (by decide)
    have hd4 : (args.dropLast.any fun a => a.head? == some ':') = false := by
      rw [List.any_eq_false]
      intro a ha hcontra
      have := bool_eq_false_of_ne (hdl a ha)
      rw [Bool.or_eq_false_iff] at this
      rw [hcontra] at this
      exact absurd this.1 (by decide)
    have hd5 : (args.dropLast.any fun a => a.contains ' ') = false := by
      rw [List.any_eq_false]
      intro a ha hcontra
      have := bool_eq_false_of_ne (hdl a ha)
      rw [Bool.or_eq_false_iff] at this
      rw [hcontra] at this
      exact absurd this.2 (by decide)
    have hae' : (args.any List.isEmpty) = false := by
      rw [List.any_eq_false]
      exact hae
    unfold formatErrorCondImpl
    rw [List.any_cons, hce, hae', hm2, hm3, hd4, hd5]
    rfl
  refine ⟨?_, ?_, hspec⟩
  · unfold format formatErrorCondImpl
    by_cases h1 : ((command :: args).any List.isEmpty) = true
    · rw [if_pos h1, h1]
      rfl
    · have h1' := bool_eq_false_of_ne h1
      rw [if_neg h1, h1']
      by_cases h2 : (!(matchPlusDollar isAlnumAscii command)) = true
      · rw [if_pos h2, h2]
        rfl
      · have h2' := bool_eq_false_of_ne h2
        rw [if_neg h2, h2']
        by_cases h3 :
            (!(args.all fun a => matchPlusDollar (fun c => !isBadArgChar c) a)) = true
        · rw [if_pos h3, h3]
          rfl
        · have h3' := bool_eq_false_of_ne h3
          rw [if_neg h3, h3']
          by_cases h4 : (args.dropLast.any fun a => a.head? == some ':') = true
          · rw [if_pos h4, h4]
            rfl
          · have h4' := bool_eq_false_of_ne h4
            rw [if_neg h4, h4']
            by_cases h5 : (args.dropLast.any fun a => a.contains ' ') = true
            · rw [if_pos h5, h5]
              rfl
            · have h5' := bool_eq_false_of_ne h5
              rw [if_neg h5, h5']
              rfl
  · intro h
    unfold formatErrorCondImpl at h
    simp only [Bool.or_eq_false_iff] at h
    obtain ⟨⟨⟨⟨e1, e2⟩, e3⟩, e4⟩, e5⟩ := h
    unfold format
    rw [if_neg (by rw [e1]; decide), if_neg (by rw [e2]; decide),
      if_neg (by rw [e3]; decide), if_neg (by rw [e4]; decide),
      if_neg (by rw [e5]; decide)]

/-- Witness for `format_correct`: the command with a colon-bearing middle
argument and a spaced trailing argument from the repository's own test
suite. -/
theorem format_correct_witness :
    formatErrorCondImpl "CMD".toList ["a:".toList, "b c".toList] = false
    ∧ format "CMD".toList ["a:".toList, "b c".toList] = .ok "CMD a: :b c".toList :=
  ⟨by decide,
   ((format_correct "CMD".toList ["a:".toList, "b c".toList]).2.1 (by decide)).trans
     (by decide)⟩

/-! ### Message equality and hashing -/

/-- Counterexample to C7 as stated: two `Message` objects constructed
separately from the same components (up to IRC case) are NOT equal --
`Message` defines `__hash__` but no `__eq__`, so Python falls back to
identity comparison -- even though their hash keys coincide. -/
theorem messageEq_counterexample :
    messageEq ⟨0, "Nick", "PRIVMSG", ["x"]⟩ ⟨1, "nick", "privmsg", ["x"]⟩ = false
    ∧ messageHashKey ⟨0, "Nick", "PRIVMSG", ["x"]⟩
        = messageHashKey ⟨1, "nick", "privmsg", ["x"]⟩ := by
  constructor
  · decide
  · decide

/-- C7 (amended): two `Message` values constructed from the same sender,
command, and arguments up to case-insensitive equality of sender and
command have equal hashes -- hashing is determined by the whole component
tuple with case-folded sender and command -- but they are not equal unless
they are the same object: `Message` does not override `__eq__`, so
equality is object identity. -/
theorem message_hash_and_identity (a b : MessageObj) :
    (messageEq a b = true ↔ a.oid = b.oid)
    ∧ (ircLower a.sender = ircLower b.sender →
       ircLower a.command = ircLower b.command →
       a.args = b.args → messageHashKey a = messageHashKey b) := by
  constructor
  · simp [messageEq]
  · intro h1 h2 h3
    simp [messageHashKey, h1, h2, h3]

/-- Witness for `message_hash_and_identity`: equal hash keys for two
objects differing only in case of sender and command. -/
theorem message_hash_and_identity_witness :
    messageHashKey ⟨0, "Nick", "CMD", ["x"]⟩ = messageHashKey ⟨1, "nick", "cmd", ["x"]⟩ :=
  (message_hash_and_identity ⟨0, "Nick", "CMD", ["x"]⟩ ⟨1, "nick", "cmd", ["x"]⟩).2
    (by decide) (by decide) rfl

/-! ### The splitter crash -/

/-- C9 fails on the code: the input "  a" with byte limit 2 is a nonempty
string whose UTF-8 encoding exceeds the limit, yet `split_string` does not
return a list of pieces -- the Python code reaches the space-break branch
with a pending piece consisting only of spaces, so `nonspace` is still
`None` and evaluating `space_index <= nonspace` raises `TypeError`. -/
theorem split_string_type_error :
    ("  a".toList ≠ [] ∧ 2 < utf8Len "  a".toList)
    ∧ split_string (asciiGraphemes "  a".toList) 2 true = .error .typeErr := by
  constructor
  · constructor
    · decide
    · decide
  · decide

/-! ### The sender prefix of `parse` -/

/-- `takeWhile` keeps a prefix all of whose elements satisfy the predicate
and stops at a failing head of the remainder. -/
theorem takeWhile_append_all {α : Type} (p : α → Bool) :
    ∀ (l r : List α), (∀ c ∈ l, p c = true) →
      (∀ c, r.head? = some c → p c = false) →
      (l ++ r).takeWhile p = l := by
  intro l
  induction l with
  | nil =>
    intro r _ hr
    cases r with
    | nil => rfl
    | cons c t =>
      simp only [List.nil_append, List.takeWhile_cons, hr c rfl]
      simp
  | cons a l ih =>
    intro r hl hr
    have ha : p a = true := hl a (List.mem_cons_self _ _)
    simp only [List.cons_append, List.takeWhile_cons, ha, if_true]
    rw [ih r (fun c hc => hl c (List.mem_cons_of_mem _ hc)) hr]

/-- `dropWhile` drops a prefix all of whose elements satisfy the predicate
and stops at a failing head of the remainder. -/
theorem dropWhile_append_all {α : Type} (p : α → Bool) :
    ∀ (l r : List α), (∀ c ∈ l, p c = true) →
      (∀ c, r.head? = some c → p c = false) →
      (l ++ r).dropWhile p = r := by
  intro l
  induction l with
  | nil =>
    intro r _ hr
    cases r with
    | nil => rfl
    | cons c t =>
      simp only [List.nil_append, List.dropWhile_cons, hr c rfl]
      simp
  | cons a l ih =>
    intro r hl hr
    have ha : p a = true := hl a (List.mem_cons_self _ _)
    simp only [List.cons_append, List.dropWhile_cons, ha, if_true]
    exact ih r (fun c hc => hl c (List.mem_cons_of_mem _ hc)) hr

/-- `dropSpaces` is the identity on input not starting with a space. -/
theorem dropSpaces_of_head_ne (l : List Char) (h : ∀ c, l.head? = some c → c ≠ ' ') :
    dropSpaces l = l := by
  cases l with
  | nil => rfl
  | cons c t =>
    have : ¬(c = ' ') := h c rfl
    simp only [dropSpaces, List.dropWhile_cons]
    simp [this]

/-- `restOk` on input not starting with a space is false. -/
theorem restOk_of_head_ne (c : Char) (t : List Char) (h : c ≠ ' ') :
    restOk (c :: t) = false := by
  simp [restOk, h]

/-- `restOk` after a space holds when the rest is not spaces only. -/
theorem restOk_space_cons (rest : List Char) (hne : rest ≠ [])
    (hhd : ∀ c, rest.head? = some c → c ≠ ' ') :
    restOk (' ' :: rest) = true := by
  have hd : (' ' :: rest).dropWhile (fun c => c = ' ') = rest := by
    have h0 : (' ' :: rest).dropWhile (fun c => c = ' ')
        = rest.dropWhile (fun c => c = ' ') := by
      simp [List.dropWhile_cons]
    have h1 := dropSpaces_of_head_ne rest hhd
    rw [h0]
    simpa [dropSpaces] using h1
  simp [restOk, hd, hne]

/-- `findHost` over a host with no spaces, followed by a space and a
nonempty rest not starting with a space, finds exactly the host. -/
theorem findHost_clean :
    ∀ (host rest : List Char), (∀ c ∈ host, c ≠ ' ') → rest ≠ [] →
      (∀ c, rest.head? = some c → c ≠ ' ') →
      findHost (host ++ ' ' :: rest) = some (host, rest) := by
  intro host
  induction host with
  | nil =>
    intro rest _ hne hhd
    simp only [List.nil_append, findHost]
    rw [restOk_space_cons rest hne hhd]
    have hd : dropSpaces (' ' :: rest) = rest := by
      have h0 : dropSpaces (' ' :: rest) = dropSpaces rest := by
        simp [dropSpaces, List.dropWhile_cons]
      rw [h0]
      exact dropSpaces_of_head_ne rest hhd
    simp [hd]
  | cons c hs ih =>
    intro rest hcs hne hhd
    have hc : c ≠ ' ' := hcs c (List.mem_cons_self _ _)
    have hcs' : ∀ x ∈ hs, x ≠ ' ' := fun x hx => hcs x (List.mem_cons_of_mem _ hx)
    simp only [List.cons_append, findHost]
    rw [restOk_of_head_ne c _ hc]
    simp only [Bool.false_eq_true, if_false]
    show Option.map (fun pr => (c :: pr.1, pr.2)) (findHost (hs ++ ' ' :: rest))
      = some (c :: hs, rest)
    rw [ih rest hcs' hne hhd]
    rfl

/-- `findUserHost` skips over characters that are not the at sign. -/
theorem findUserHost_append :
    ∀ (user l : List Char), (∀ c ∈ user, c ≠ '@') →
      findUserHost (user ++ l) = (findUserHost l).map (fun pr => (user ++ pr.1, pr.2)) := by
  intro user
  induction user with
  | nil =>
    intro l _
    cases h : findUserHost l <;> simp [h]
  | cons c us ih =>
    intro l hu
    have hc : c ≠ '@' := hu c (List.mem_cons_self _ _)
    have hu' : ∀ x ∈ us, x ≠ '@' := fun x hx => hu x (List.mem_cons_of_mem _ hx)
    simp only [List.cons_append, findUserHost]
    rw [if_neg hc]
    show Option.map (fun pr => (c :: pr.1, pr.2)) (findUserHost (us ++ l))
      = Option.map (fun pr => (c :: us ++ pr.1, pr.2)) (findUserHost l)
    rw [ih l hu']
    cases h : findUserHost l <;> simp [h]

/-- `findUserHost` fails when the input contains no at sign. -/
theorem findUserHost_none :
    ∀ (l : List Char), '@' ∉ l → findUserHost l = none := by
  intro l
  induction l with
  | nil => intro _; rfl
  | cons c t ih =>
    intro h
    have hc : c ≠ '@' := fun hh => h (hh ▸ List.mem_cons_self _ _)
    have ht : '@' ∉ t := fun hh => h (List.mem_cons_of_mem _ hh)
    simp only [findUserHost]
    rw [if_neg hc, ih ht]
    rfl

/-- `findUserHost` at the at sign takes the successfully found host. -/
theorem findUserHost_at (l : List Char) (host rest : List Char)
    (h : findHost l = some (host, rest)) :
    findUserHost ('@' :: l) = some ([], host, rest) := by
  simp [findUserHost, h]

/-- `tryInner` fails at a character that is neither an exclamation mark
nor an at sign. -/
theorem tryInner_nonspecial (c : Char) (t : List Char)
    (h1 : c ≠ '!') (h2 : c ≠ '@') : tryInner (c :: t) = none := by
  simp only [tryInner, tryInnerNoBang]
  rw [if_neg h1, if_neg h2]

/-- `tryInner` at an exclamation mark with no reachable at sign fails. -/
theorem tryInner_bang_none (t : List Char) (h : findUserHost t = none) :
    tryInner ('!' :: t) = none := by
  simp [tryInner, tryInnerNoBang, h]

/-- `tryInner` at an exclamation mark with user and host found. -/
theorem tryInner_bang_some (t : List Char) (r : List Char × List Char × List Char)
    (h : findUserHost t = some r) : tryInner ('!' :: t) = some r := by
  simp [tryInner, h]

/-- `takeWhile` of an all-satisfying list is the list itself. -/
theorem takeWhile_all {α : Type} (p : α → Bool) (l : List α)
    (h : ∀ c ∈ l, p c = true) : l.takeWhile p = l := by
  have := takeWhile_append_all p l [] h (fun c hc => by simp at hc)
  simpa using this

/-- `dropWhile` of an all-satisfying list is empty. -/
theorem dropWhile_all {α : Type} (p : α → Bool) (l : List α)
    (h : ∀ c ∈ l, p c = true) : l.dropWhile p = [] := by
  have := dropWhile_append_all p l [] h (fun c hc => by simp at hc)
  simpa using this

/-- `findSenderEnd` skips over nickname characters: no exclamation mark,
at sign, or space. -/
theorem findSenderEnd_skip :
    ∀ (a rest : List Char), (∀ c ∈ a, c ≠ '!' ∧ c ≠ '@' ∧ c ≠ ' ') →
      findSenderEnd (a ++ rest)
        = (findSenderEnd rest).map (fun pr => (a ++ pr.1, pr.2)) := by
  intro a
  induction a with
  | nil =>
    intro rest _
    cases h : findSenderEnd rest <;> simp [h]
  | cons c as ih =>
    intro rest ha
    obtain ⟨h1, h2, h3⟩ := ha c (List.mem_cons_self _ _)
    have ha' : ∀ x ∈ as, x ≠ '!' ∧ x ≠ '@' ∧ x ≠ ' ' :=
      fun x hx => ha x (List.mem_cons_of_mem _ hx)
    simp only [List.cons_append, findSenderEnd]
    rw [tryInner_nonspecial c _ h1 h2, restOk_of_head_ne c _ h3]
    simp only [Bool.false_eq_true, if_false]
    show Option.map (fun pr => (c :: pr.1, pr.2)) (findSenderEnd (as ++ rest))
      = Option.map (fun pr => ((c :: as) ++ pr.1, pr.2)) (findSenderEnd rest)
    rw [ih rest ha']
    cases h : findSenderEnd rest <;> simp [h]

/-- `findSenderEnd` also skips over characters that are not an at sign or
a space when no at sign occurs later (the lazy user group of the regex can
search past any character, including exclamation marks and spaces, but
needs an at sign to succeed). -/
theorem findSenderEnd_skip_noAt :
    ∀ (a rest : List Char), (∀ c ∈ a, c ≠ '@' ∧ c ≠ ' ') →
      (∀ c ∈ rest, c ≠ '@') →
      findSenderEnd (a ++ rest)
        = (findSenderEnd rest).map (fun pr => (a ++ pr.1, pr.2)) := by
  intro a
  induction a with
  | nil =>
    intro rest _ _
    cases h : findSenderEnd rest <;> simp [h]
  | cons c as ih =>
    intro rest ha hrest
    obtain ⟨h2, h3⟩ := ha c (List.mem_cons_self _ _)
    have ha' : ∀ x ∈ as, x ≠ '@' ∧ x ≠ ' ' :=
      fun x hx => ha x (List.mem_cons_of_mem _ hx)
    have hti : tryInner (c :: (as ++ rest)) = none := by
      by_cases hbang : c = '!'
      · subst hbang
        apply tryInner_bang_none
        apply findUserHost_none
        intro hmem
        rcases List.mem_append.mp hmem with hin | hin
        · exact ( ha' '@' hin).1 rfl
        · exact hrest '@' hin rfl
      · exact tryInner_nonspecial c _ hbang h2
    simp only [List.cons_append, findSenderEnd, List.append_eq]
    rw [hti, restOk_of_head_ne c _ h3]
    simp only [Bool.false_eq_true, if_false]
    show Option.map (fun pr => (c :: pr.1, pr.2)) (findSenderEnd (as ++ rest))
      = Option.map (fun pr => ((c :: as) ++ pr.1, pr.2)) (findSenderEnd rest)
    rw [ih rest ha' hrest]
    cases h : findSenderEnd rest <;> simp [h]

/-- At the closing space run the sender search ends with empty user and
host groups. -/
theorem findSenderEnd_at_space (cmd : List Char) (hne : cmd ≠ [])
    (hhd : ∀ c, cmd.head? = some c → c ≠ ' ') :
    findSenderEnd (' ' :: cmd) = some ([], ([], [], cmd)) := by
  simp only [findSenderEnd]
  rw [tryInner_nonspecial ' ' _ (by decide) (by decide),
    restOk_space_cons cmd hne hhd]
  have hd : dropSpaces (' ' :: cmd) = cmd := by
    have h0 : dropSpaces (' ' :: cmd) = dropSpaces cmd := by
      simp [dropSpaces, List.dropWhile_cons]
    rw [h0]
    exact dropSpaces_of_head_ne cmd hhd
  simp [hd]

/-- When the inner user/host group matches, the sender search ends there. -/
theorem findSenderEnd_inner_some (c : Char) (t : List Char)
    (r : List Char × List Char × List Char) (h : tryInner (c :: t) = some r) :
    findSenderEnd (c :: t) = some ([], r) := by
  simp [findSenderEnd, h]

/-- A single character the sender search steps over. -/
theorem findSenderEnd_step_skip (c : Char) (t : List Char)
    (hti : tryInner (c :: t) = none) (hro : restOk (c :: t) = false) :
    findSenderEnd (c :: t) = (findSenderEnd t).map (fun pr => (c :: pr.1, pr.2)) := by
  simp [findSenderEnd, hti, hro]

/-- `parse` of a line with a successfully split sender prefix followed by
a single command word. -/
theorem parse_cons_colon (t n u h r : List Char)
    (hfind : findSenderEnd t = some (n, (u, h, r)))
    (hr : ∀ c ∈ r, c ≠ ' ') (hrne : r ≠ []) :
    parse (':' :: t) = some ⟨n, u, h, r, []⟩ := by
  have htake : List.takeWhile (fun c => !decide (c = ' ')) r = r :=
    takeWhile_all _ r (fun c hc => by simp [hr c hc])
  have hdrop : List.dropWhile (fun c => !decide (c = ' ')) r = [] :=
    dropWhile_all _ r (fun c hc => by simp [hr c hc])
  have hmid : parseMiddle 14 ([] : List Char) = ([], []) := rfl
  have htrail : parseTrailing ([] : List Char) = [] := rfl
  have hne' : r.isEmpty = false := by
    cases r with
    | nil => exact absurd rfl hrne
    | cons a l => rfl
  simp [parse, hfind, htake, hdrop, hmid, htrail, hne']

/-- Counterexample to C8 as stated: for the prefix `:nick!user` (user
present without host) the parser does NOT split out the username -- the
regex only recognizes `!user` together with `@host`, so the lazy nickname
group swallows the whole prefix and the sender is "nick!user" with empty
username. -/
theorem parse_prefix_counterexample :
    parse ":nick!user CMD".toList
      = some ⟨"nick!user".toList, [], [], "CMD".toList, []⟩
    ∧ (parse ":nick!user CMD".toList).map ParsedMsg.sender ≠ some "nick".toList
    ∧ (parse ":nick!user CMD".toList).map ParsedMsg.username ≠ some "user".toList := by
  refine ⟨by decide, by decide, by decide⟩

/-- C8 (amended): the prefix grammar the parser implements is
`nick[[!user]@host]`.  For a line `:nick CMD` the sender is `nick` with
empty username and hostname; for `:nick!user@host CMD` the sender is
`nick` with username `user` and hostname `host`; but for `:nick!user CMD`
(user present without host) the username is not split out: the whole
`nick!user` becomes the sender and username and hostname are empty. -/
theorem parse_sender_forms (nick user host cmd : List Char)
    (hnick : ∀ c ∈ nick, c ≠ '!' ∧ c ≠ '@' ∧ c ≠ ' ')
    (huser : ∀ c ∈ user, c ≠ '@' ∧ c ≠ ' ')
    (hhost : ∀ c ∈ host, c ≠ ' ')
    (hcmd : ∀ c ∈ cmd, c ≠ ' ') (hcmdne : cmd ≠ []) :
    parse (':' :: (nick ++ (' ' :: cmd))) = some ⟨nick, [], [], cmd, []⟩
    ∧ parse (':' :: (nick ++ ('!' :: (user ++ ('@' :: (host ++ (' ' :: cmd)))))))
        = some ⟨nick, user, host, cmd, []⟩
    ∧ ((∀ c ∈ cmd, c ≠ '@') →
       parse (':' :: (nick ++ ('!' :: (user ++ (' ' :: cmd)))))
         = some ⟨nick ++ '!' :: user, [], [], cmd, []⟩) := by
  have hhd : ∀ c, cmd.head? = some c → c ≠ ' ' := by
    intro c hc
    apply hcmd
    cases cmd with
    | nil => simp at hc
    | cons a l =>
      simp only [List.head?_cons, Option.some_inj] at hc
      rw [← hc]
      exact List.mem_cons_self _ _
  refine ⟨?_, ?_, ?_⟩
  · have hfind : findSenderEnd (nick ++ (' ' :: cmd)) = some (nick, ([], [], cmd)) := by
      rw [findSenderEnd_skip nick (' ' :: cmd) hnick,
        findSenderEnd_at_space cmd hcmdne hhd]
      simp
    exact parse_cons_colon _ _ _ _ _ hfind hcmd hcmdne
  · have hfuh : findUserHost (user ++ ('@' :: (host ++ (' ' :: cmd))))
        = some (user, host, cmd) := by
      rw [findUserHost_append user _ (fun c hc => (huser c hc).1),
        findUserHost_at _ host cmd (findHost_clean host cmd hhost hcmdne hhd)]
      simp
    have hfind : findSenderEnd (nick ++ ('!' :: (user ++ ('@' :: (host ++ (' ' :: cmd))))))
        = some (nick, (user, host, cmd)) := by
      rw [findSenderEnd_skip nick _ hnick,
        findSenderEnd_inner_some '!' _ _ (tryInner_bang_some _ _ hfuh)]
      simp
    exact parse_cons_colon _ _ _ _ _ hfind hcmd hcmdne
  · intro hcmdAt
    have hfuh : findUserHost (user ++ (' ' :: cmd)) = none := by
      apply findUserHost_none
      intro hmem
      rcases List.mem_append.mp hmem with hin | hin
      · exact (huser '@' hin).1 rfl
      · rcases List.mem_cons.mp hin with heq | hin'
        · exact absurd heq (by decide)
        · exact hcmdAt '@' hin' rfl
    have huserpart : findSenderEnd (user ++ (' ' :: cmd))
        = some (user, ([], [], cmd)) := by
      rw [findSenderEnd_skip_noAt user (' ' :: cmd) huser
          (by
            intro c hc
            rcases List.mem_cons.mp hc with heq | hin'
            · rw [heq]; decide
            · exact hcmdAt c hin'),
        findSenderEnd_at_space cmd hcmdne hhd]
      simp
    have hfind : findSenderEnd (nick ++ ('!' :: (user ++ (' ' :: cmd))))
        = some (nick ++ '!' :: user, ([], [], cmd)) := by
      rw [findSenderEnd_skip nick _ hnick,
        findSenderEnd_step_skip '!' _ (tryInner_bang_none _ hfuh)
          (restOk_of_head_ne '!' _ (by decide)),
        huserpart]
      simp
    exact parse_cons_colon _ _ _ _ _ hfind hcmd hcmdne

/-- Witness for `parse_sender_forms` at the standard prefix shapes. -/
theorem parse_sender_forms_witness :
    parse (':' :: ("nick".toList ++ (' ' :: "CMD".toList)))
      = some ⟨"nick".toList, [], [], "CMD".toList, []⟩
    ∧ parse (':' :: ("nick".toList ++ ('!' :: ("user".toList ++
        ('@' :: ("host".toList ++ (' ' :: "CMD".toList)))))))
        = some ⟨"nick".toList, "user".toList, "host".toList, "CMD".toList, []⟩
    ∧ parse (':' :: ("nick".toList ++ ('!' :: ("user".toList ++ (' ' :: "CMD".toList)))))
        = some ⟨"nick".toList ++ '!' :: "user".toList, [], [], "CMD".toList, []⟩ := by
  obtain ⟨h1, h2, h3⟩ := parse_sender_forms "nick".toList "user".toList "host".toList
    "CMD".toList (by decide) (by decide) (by decide) (by decide) (by decide)
  exact ⟨h1, h2, h3 (by decide)⟩

/-- `joinSpaceTail` distributes over appending a final piece. -/
theorem joinSpaceTail_append (y : List Char) :
    ∀ (xs : List (List Char)),
      joinSpaceTail (xs ++ [y]) = joinSpaceTail xs ++ (' ' :: y) := by
  intro xs
  induction xs with
  | nil => simp [joinSpaceTail]
  | cons w ws ih =>
    simp only [List.cons_append, joinSpaceTail, List.append_eq]
    rw [ih]
    simp

/-- An ASCII alphanumeric character is neither a colon nor a space. -/
theorem alnum_ne (c : Char) (h : isAlnumAscii c = true) : c ≠ ':' ∧ c ≠ ' ' := by
  constructor
  · intro heq
    rw [heq] at h
    exact absurd h (by decide)
  · intro heq
    rw [heq] at h
    exact absurd h (by decide)

/-- The greedy middle-argument parse recovers words separated by single
spaces and stops at the trailing part (empty, or a space followed by a
colon). -/
theorem parseMiddle_words :
    ∀ (ws : List (List Char)) (n : ℕ) (trail : List Char),
      ws.length ≤ n →
      (∀ w ∈ ws, w ≠ [] ∧ (∀ c ∈ w, c ≠ ' ') ∧ (∀ c, w.head? = some c → c ≠ ':')) →
      (trail = [] ∨ ∃ la, trail = ' ' :: ':' :: la) →
      parseMiddle n (joinSpaceTail ws ++ trail) = (ws, trail) := by
  intro ws
  induction ws with
  | nil =>
    intro n trail _ _ htrail
    rcases htrail with rfl | ⟨la, rfl⟩
    · cases n with
      | zero => rfl
      | succ n => rfl
    · cases n with
      | zero => rfl
      | succ n =>
        show parseMiddle (n + 1) (' ' :: ':' :: la) = ([], ' ' :: ':' :: la)
        simp [parseMiddle, List.takeWhile_cons, List.dropWhile_cons]
  | cons w ws ih =>
    intro n trail hlen hws htrail
    obtain ⟨hwne, hwsp, hwcol⟩ := hws w (List.mem_cons_self _ _)
    have hws' : ∀ x ∈ ws, x ≠ [] ∧ (∀ c ∈ x, c ≠ ' ') ∧ (∀ c, x.head? = some c → c ≠ ':') :=
      fun x hx => hws x (List.mem_cons_of_mem _ hx)
    cases n with
    | zero => simp at hlen
    | succ n =>
      obtain ⟨c, t, rfl⟩ : ∃ c t, w = c :: t := by
        cases w with
        | nil => exact absurd rfl hwne
        | cons c t => exact ⟨c, t, rfl⟩
      have hc_sp : c ≠ ' ' := hwsp c (List.mem_cons_self _ _)
      have hc_col : c ≠ ':' := hwcol c rfl
      have ht_sp : ∀ x ∈ t, x ≠ ' ' := fun x hx => hwsp x (List.mem_cons_of_mem _ hx)
      have hshape : joinSpaceTail ((c :: t) :: ws) ++ trail
          = ' ' :: (c :: (t ++ (joinSpaceTail ws ++ trail))) := by
        simp [joinSpaceTail]
      rw [hshape]
      have hrest_head : ∀ x, (joinSpaceTail ws ++ trail).head? = some x → x = ' ' := by
        intro x hx
        cases ws with
        | cons w' ws' =>
          simp [joinSpaceTail] at hx
          exact hx.symm
        | nil =>
          rcases htrail with rfl | ⟨la, rfl⟩
          · simp [joinSpaceTail] at hx
          · simp [joinSpaceTail] at hx
            exact hx.symm
      have htake : List.takeWhile (fun x => !decide (x = ' '))
          (t ++ (joinSpaceTail ws ++ trail)) = t := by
        apply takeWhile_append_all
        · intro x hx
          simp [ht_sp x hx]
        · intro x hx
          have := hrest_head x hx
          rw [this]
          decide
      have hdrop : List.dropWhile (fun x => !decide (x = ' '))
          (t ++ (joinSpaceTail ws ++ trail)) = joinSpaceTail ws ++ trail := by
        apply dropWhile_append_all
        · intro x hx
          simp [ht_sp x hx]
        · intro x hx
          have := hrest_head x hx
          rw [this]
          decide
      have hrec := ih n trail (by simpa using hlen) hws' htrail
      simp [parseMiddle, List.takeWhile_cons, List.dropWhile_cons,
        hc_sp, hc_col, htake, hdrop, hrec]

/-- `colonLast` on a list with an explicit last element. -/
theorem colonLast_concat (as : List (List Char)) (la : List Char) :
    colonLast (as ++ [la]) = as ++ [':' :: la] := by
  simp [colonLast]

/-- `parseTrailing` strips the space run and the optional colon. -/
theorem parseTrailing_colon (la : List Char) :
    parseTrailing (' ' :: ':' :: la) = la := by
  simp [parseTrailing, dropSpaces, List.dropWhile_cons]

/-- `parse` of a line without a sender prefix: the command is the first
word, and the rest feeds the middle-argument and trailing groups. -/
theorem parse_no_prefix (command tailpart : List Char)
    (h_ne : command ≠ []) (h_sp : ∀ c ∈ command, c ≠ ' ')
    (h_col : command.head? ≠ some ':')
    (h_tail : ∀ x, tailpart.head? = some x → x = ' ') :
    parse (command ++ tailpart)
      = some ⟨[], [], [], command,
          (parseMiddle 14 tailpart).1 ++
            (if (parseTrailing (parseMiddle 14 tailpart).2).isEmpty then []
             else [parseTrailing (parseMiddle 14 tailpart).2])⟩ := by
  have htake : List.takeWhile (fun x => !decide (x = ' ')) (command ++ tailpart)
      = command := by
    apply takeWhile_append_all
    · intro x hx
      simp [h_sp x hx]
    · intro x hx
      have := h_tail x hx
      rw [this]
      decide
  have hdrop : List.dropWhile (fun x => !decide (x = ' ')) (command ++ tailpart)
      = tailpart := by
    apply dropWhile_append_all
    · intro x hx
      simp [h_sp x hx]
    · intro x hx
      have := h_tail x hx
      rw [this]
      decide
  obtain ⟨c0, t0, rfl⟩ : ∃ c0 t0, command = c0 :: t0 := by
    cases command with
    | nil => exact absurd rfl h_ne
    | cons c0 t0 => exact ⟨c0, t0, rfl⟩
  have hhead : c0 ≠ ':' := by simpa using h_col
  have hne' : (c0 :: t0).isEmpty = false := rfl
  rw [List.cons_append] at htake hdrop
  have hc0 : c0 ≠ ' ' := h_sp c0 (List.mem_cons_self _ _)
  simp [parse, hhead, htake, hdrop, hne', hc0]

/-- Counterexample to C4 as stated: with 16 arguments the formatted line
is valid, but middle-argument group of the parser accepts at most 14
words, so the 15th argument and the colon-prefixed 16th merge into a
single trailing argument and the round trip fails. -/
theorem parse_format_counterexample :
    format "C".toList (List.replicate 16 "a".toList)
      = .ok "C a a a a a a a a a a a a a a a :a".toList
    ∧ (parse "C a a a a a a a a a a a a a a a :a".toList).map ParsedMsg.args
        = some (List.replicate 14 "a".toList ++ ["a :a".toList])
    ∧ (parse "C a a a a a a a a a a a a a a a :a".toList).map ParsedMsg.args
        ≠ some (List.replicate 16 "a".toList) := by
  refine ⟨by decide, by decide, by decide⟩

/-- C4 (amended): for every valid command and argument list -- command
nonempty and alphanumeric, no argument empty or containing NUL, CR or LF,
only the last argument containing a space or a leading colon -- of at
most 15 arguments, parsing the formatted line yields a message whose
sender is empty, whose command is the original command, and whose
arguments are exactly the original argument list. -/
theorem parse_format_roundtrip (command : List Char) (args : List (List Char))
    (hcmd_ne : command ≠ [])
    (hcmd_alnum : ∀ c ∈ command, isAlnumAscii c = true)
    (hargs_ne : ∀ a ∈ args, a ≠ [])
    (hargs_char : ∀ a ∈ args, ∀ c ∈ a, isBadArgChar c = false)
    (hmid_colon : ∀ a ∈ args.dropLast, a.head? ≠ some ':')
    (hmid_space : ∀ a ∈ args.dropLast, ∀ c ∈ a, c ≠ ' ')
    (hlen : args.length ≤ 15) :
    format command args = .ok (joinSpace (command :: colonLast args))
    ∧ parse (joinSpace (command :: colonLast args))
        = some ⟨[], [], [], command, args⟩ := by
  have hcmd_sp : ∀ c ∈ command, c ≠ ' ' := fun c hc => (alnum_ne c (hcmd_alnum c hc)).2
  have hcmd_col : command.head? ≠ some ':' := by
    obtain ⟨c0, t0, rfl⟩ : ∃ c0 t0, command = c0 :: t0 := by
      cases command with
      | nil => exact absurd rfl hcmd_ne
      | cons c0 t0 => exact ⟨c0, t0, rfl⟩
    have := (alnum_ne c0 (hcmd_alnum c0 (List.mem_cons_self _ _))).1
    simpa using this
  have b1 : ((command :: args).any List.isEmpty) = false := by
    rw [List.any_eq_false]
    intro x hx
    rcases List.mem_cons.mp hx with rfl | hx'
    · simpa using hcmd_ne
    · simpa using hargs_ne x hx'
  have b2 : (!(matchPlusDollar isAlnumAscii command)) = false := by
    rw [matchPlusDollar_of_all isAlnumAscii command hcmd_ne hcmd_alnum (by decide)]
    rfl
  have b3 : (!(args.all fun a => matchPlusDollar (fun c => !isBadArgChar c) a)) = false := by
    have hall : (args.all fun a => matchPlusDollar (fun c => !isBadArgChar c) a) = true := by
      rw [List.all_eq_true]
      intro a ha
      refine matchPlusDollar_of_all _ a (hargs_ne a ha) ?_ (by decide)
      intro c hc
      rw [hargs_char a ha c hc]
      rfl
    rw [hall]
    rfl
  have b4 : (args.dropLast.any fun a => a.head? == some ':') = false := by
    rw [List.any_eq_false]
    intro a ha
    simpa using hmid_colon a ha
  have b5 : (args.dropLast.any fun a => a.contains ' ') = false := by
    rw [List.any_eq_false]
    intro a ha
    have hmem : ' ' ∉ a := fun hin => hmid_space a ha ' ' hin rfl
    simp [hmem]
  have hline : format command args = .ok (joinSpace (command :: colonLast args)) := by
    unfold format
    rw [if_neg (by rw [b1]; decide), if_neg (by rw [b2]; decide), if_neg (by rw [b3]; decide),
      if_neg (by rw [b4]; decide), if_neg (by rw [b5]; decide)]
  refine ⟨hline, ?_⟩
  rcases List.eq_nil_or_concat args with rfl | ⟨as, la, hconcat⟩
  · have hjs : joinSpace (command :: colonLast []) = command := by
      simp [joinSpace, joinSpaceTail, colonLast]
    have hp := parse_no_prefix command [] hcmd_ne hcmd_sp hcmd_col
      (by intro x hx; simp at hx)
    rw [List.append_nil] at hp
    rw [hjs, hp]
    rfl
  · rw [List.concat_eq_append] at hconcat
    subst hconcat
    have hla_ne : la ≠ [] := hargs_ne la (by simp)
    have hdl : (as ++ [la]).dropLast = as := by simp
    have hjs : joinSpace (command :: colonLast (as ++ [la]))
        = command ++ (joinSpaceTail as ++ (' ' :: ':' :: la)) := by
      rw [colonLast_concat]
      simp [joinSpace, joinSpaceTail_append]
    have h_tail : ∀ x, (joinSpaceTail as ++ (' ' :: ':' :: la)).head? = some x → x = ' ' := by
      intro x hx
      cases as with
      | nil =>
        simp [joinSpaceTail] at hx
        exact hx.symm
      | cons w ws =>
        simp [joinSpaceTail] at hx
        exact hx.symm
    have hmid : parseMiddle 14 (joinSpaceTail as ++ (' ' :: ':' :: la))
        = (as, ' ' :: ':' :: la) := by
      apply parseMiddle_words
      · have hl : (as ++ [la]).length = as.length + 1 := by simp
        rw [hl] at hlen
        omega
      · intro w hw
        have hw' : w ∈ (as ++ [la]).dropLast := by rw [hdl]; exact hw
        refine ⟨hargs_ne w (List.mem_append_left _ hw), hmid_space w hw', ?_⟩
        intro c hc heq
        apply hmid_colon w hw'
        rw [hc, heq]
      · exact Or.inr ⟨la, rfl⟩
    have hlaE : la.isEmpty = false := by
      cases la with
      | nil => exact absurd rfl hla_ne
      | cons x xs => rfl
    rw [hjs, parse_no_prefix command _ hcmd_ne hcmd_sp hcmd_col h_tail, hmid]
    simp [parseTrailing_colon, hlaE]

/-- Witness for `parse_format_roundtrip`: a PRIVMSG with a channel and a
spaced trailing text round-trips. -/
theorem parse_format_roundtrip_witness :
    format "PRIVMSG".toList ["#chan".toList, "hello world".toList]
      = .ok "PRIVMSG #chan :hello world".toList
    ∧ parse "PRIVMSG #chan :hello world".toList
      = some ⟨[], [], [], "PRIVMSG".toList, ["#chan".toList, "hello world".toList]⟩ := by
  obtain ⟨h1, h2⟩ := parse_format_roundtrip "PRIVMSG".toList
    ["#chan".toList, "hello world".toList]
    (by decide) (by decide) (by decide) (by decide) (by decide) (by decide) (by decide)
  constructor
  · exact h1.trans (by decide)
  · have he : joinSpace ("PRIVMSG".toList :: colonLast ["#chan".toList, "hello world".toList])
        = "PRIVMSG #chan :hello world".toList := by decide
    rw [← he]
    exact h2

end Pyrcb2
